import Mathlib

/-!
Verification of the balanced-search-tree implementation in src/st.py.

The Python code mutates a pointer structure: inner nodes hold a key, two
child references, a cached height and a parent back-reference, and a single
shared Empty sentinel object stands for every empty subtree.  The sentinel's
`parent` attribute is itself assigned by the code (in InnerNode.__post_init__
and in the child setters), so it is part of the mutable state.

We embed this as a heap of node records addressed by natural-number ids.
A reference is either the Empty sentinel or an id.  Every loop of the source
is fuel-bounded; running out of fuel (or dereferencing a missing id, or an
assertion failure, or reading `value` on Empty) yields `none`.
-/

namespace STree

/-- Reference to a node: the shared Empty sentinel, or an inner node id. -/
inductive Ref where
  | empty
  | inner (id : Nat)
  deriving Repr, DecidableEq

/-- Record of a Python InnerNode: _value, _left, _right, _height, parent. -/
structure NodeData where
  value : Int
  left : Ref
  right : Ref
  height : Int
  parent : Option Nat
  deriving Repr, DecidableEq

/-- Whole mutable state: the node heap, the Empty sentinel's mutable
`parent` attribute, the Tree handle's root reference, and an id supply. -/
structure St where
  nodes : Nat → Option NodeData
  emptyParent : Option Nat
  root : Ref
  nextId : Nat

/-- Overwrite one heap cell. -/
def writeNode (s : St) (i : Nat) (d : NodeData) : St :=
  { s with nodes := fun j => if j = i then some d else s.nodes j }

/-- State of `Tree()`: empty root, no nodes, Empty.parent is None. -/
def initSt : St :=
  { nodes := fun _ => none, emptyParent := none, root := .empty, nextId := 0 }

/-- Node.height: Empty has height 0, an inner node returns its cached
_height field (never recomputed by traversal). -/
def heightOf (s : St) (r : Ref) : Option Int :=
  match r with
  | .empty => some 0
  | .inner i => (s.nodes i).map (·.height)

/-- Node.bf: EmptyClass.bf returns 0; otherwise right.height - left.height. -/
def bfOf (s : St) (r : Ref) : Option Int :=
  match r with
  | .empty => some 0
  | .inner i =>
    match s.nodes i with
    | none => none
    | some d =>
      match heightOf s d.right, heightOf s d.left with
      | some hr, some hl => some (hr - hl)
      | _, _ => none

/-- Node.value: raises on Empty (modelled as none). -/
def valueOf (s : St) (r : Ref) : Option Int :=
  match r with
  | .empty => none
  | .inner i => (s.nodes i).map (·.value)

/-- Node.left as a reference (Empty.left is Empty). -/
def leftOf (s : St) (r : Ref) : Option Ref :=
  match r with
  | .empty => some .empty
  | .inner i => (s.nodes i).map (·.left)

/-- Node.right as a reference (Empty.right is Empty). -/
def rightOf (s : St) (r : Ref) : Option Ref :=
  match r with
  | .empty => some .empty
  | .inner i => (s.nodes i).map (·.right)

/-- Read `r.parent`; for the sentinel this is the mutable shared attribute.
The outer Option is failure (missing id), the inner one is Python None. -/
def parentOf (s : St) (r : Ref) : Option (Option Nat) :=
  match r with
  | .empty => some s.emptyParent
  | .inner i => (s.nodes i).map (·.parent)

/-- Assign `r.parent = p`; assigning the sentinel's parent mutates the
single shared Empty object. -/
def writeParent (s : St) (r : Ref) (p : Option Nat) : Option St :=
  match r with
  | .empty => some { s with emptyParent := p }
  | .inner i =>
    match s.nodes i with
    | none => none
    | some d => some (writeNode s i { d with parent := p })

/-- Overwrite the _value field (the value.setter: no height recompute). -/
def setValue (s : St) (i : Nat) (v : Int) : Option St :=
  match s.nodes i with
  | none => none
  | some d => some (writeNode s i { d with value := v })

/-- Python `==` between node references, as the dataclass-generated
structural equality: two distinct InnerNode objects compare _value, _left,
_right, _height and parent in order, identical objects compare equal
immediately (the identity shortcut of tuple comparison).  EmptyClass has
no __eq__, so the singleton compares by identity, and an Empty never
equals an InnerNode.  Fuel bounds the recursion. -/
def pyEqRef (s : St) : Nat → Ref → Ref → Bool
  | _, .empty, .empty => true
  | 0, .inner a, .inner b => decide (a = b)
  | f + 1, .inner a, .inner b =>
    if a = b then true
    else
      match s.nodes a, s.nodes b with
      | some da, some db =>
        decide (da.value = db.value) &&
        pyEqRef s f da.left db.left &&
        pyEqRef s f da.right db.right &&
        decide (da.height = db.height) &&
        (match da.parent, db.parent with
         | none, none => true
         | some pa, some pb => pyEqRef s f (.inner pa) (.inner pb)
         | _, _ => false)
      | _, _ => false
  | _, _, _ => false

/-- Node.is_left: `self.parent is not None and self.parent.left == self`. -/
def isLeftOf (s : St) (r : Ref) (f : Nat) : Option Bool :=
  match parentOf s r with
  | none => none
  | some none => some false
  | some (some q) =>
    match s.nodes q with
    | none => none
    | some qd => some (pyEqRef s f qd.left r)

/-- InnerNode.left setter: assign _left, set the new child's parent to
self, then recompute the cached height from both children. -/
def setLeft (s : St) (i : Nat) (val : Ref) : Option St :=
  match s.nodes i with
  | none => none
  | some d =>
    let s1 := writeNode s i { d with left := val }
    match writeParent s1 val (some i) with
    | none => none
    | some s2 =>
      match s2.nodes i with
      | none => none
      | some d2 =>
        match heightOf s2 d2.left, heightOf s2 d2.right with
        | some hl, some hr => some (writeNode s2 i { d2 with height := max hl hr + 1 })
        | _, _ => none

/-- InnerNode.right setter, mirror of the left setter. -/
def setRight (s : St) (i : Nat) (val : Ref) : Option St :=
  match s.nodes i with
  | none => none
  | some d =>
    let s1 := writeNode s i { d with right := val }
    match writeParent s1 val (some i) with
    | none => none
    | some s2 =>
      match s2.nodes i with
      | none => none
      | some d2 =>
        match heightOf s2 d2.left, heightOf s2 d2.right with
        | some hl, some hr => some (writeNode s2 i { d2 with height := max hl hr + 1 })
        | _, _ => none

/-- Tree._set_parent: if old has no parent, point the tree root at new and
clear new's parent; otherwise new takes old's parent and replaces old in
the matching child slot (decided by `old.is_left`). -/
def set_parent (s : St) (newR oldR : Ref) (f : Nat) : Option St :=
  match parentOf s oldR with
  | none => none
  | some none =>
    writeParent { s with root := newR } newR none
  | some (some q) =>
    match writeParent s newR (some q) with
    | none => none
    | some s1 =>
      match isLeftOf s1 oldR f with
      | none => none
      | some il =>
        if il then setLeft s1 q newR else setRight s1 q newR

/-- Tree._rot_left: y = x.right, b = y.left; assert y is Inner; connect y
with x's former parent, then x.right = b, then y.left = x; return y. -/
def rot_left (s : St) (x : Nat) (f : Nat) : Option (St × Nat) :=
  match s.nodes x with
  | none => none
  | some xd =>
    match xd.right with
    | .empty => none
    | .inner yi =>
      match s.nodes yi with
      | none => none
      | some yd =>
        let b := yd.left
        match set_parent s (.inner yi) (.inner x) f with
        | none => none
        | some s1 =>
          match setRight s1 x b with
          | none => none
          | some s2 =>
            match setLeft s2 yi (.inner x) with
            | none => none
            | some s3 => some (s3, yi)

/-- Tree._rot_right, mirror of _rot_left. -/
def rot_right (s : St) (x : Nat) (f : Nat) : Option (St × Nat) :=
  match s.nodes x with
  | none => none
  | some xd =>
    match xd.left with
    | .empty => none
    | .inner yi =>
      match s.nodes yi with
      | none => none
      | some yd =>
        let b := yd.right
        match set_parent s (.inner yi) (.inner x) f with
        | none => none
        | some s1 =>
          match setLeft s1 x b with
          | none => none
          | some s2 =>
            match setRight s2 yi (.inner x) with
            | none => none
            | some s3 => some (s3, yi)

/-- Tree._balance_node: the four rotation cases on bf = +-2, otherwise no
rotation; finally assert -2 < bf(result) < +2 and return the result. -/
def balance_node (s : St) (n : Nat) (f : Nat) : Option (St × Nat) :=
  match s.nodes n with
  | none => none
  | some nd =>
    match bfOf s (.inner n) with
    | none => none
    | some bf0 =>
      let step : Option (St × Nat) :=
        if bf0 = 2 then
          match bfOf s nd.right with
          | none => none
          | some rbf =>
            if 0 ≤ rbf then rot_left s n f
            else if rbf = -1 then
              match nd.right with
              | .empty => none
              | .inner ri =>
                match rot_right s ri f with
                | none => none
                | some (s1, _) => rot_left s1 n f
            else some (s, n)
        else if bf0 = -2 then
          match bfOf s nd.left with
          | none => none
          | some lbf =>
            if lbf ≤ 0 then rot_right s n f
            else if lbf = 1 then
              match nd.left with
              | .empty => none
              | .inner li =>
                match rot_left s li f with
                | none => none
                | some (s1, _) => rot_right s1 n f
            else some (s, n)
        else some (s, n)
      match step with
      | none => none
      | some (s2, m) =>
        match bfOf s2 (.inner m) with
        | none => none
        | some bf1 =>
          if -2 < bf1 ∧ bf1 < 2 then some (s2, m) else none

/-- Tree._rebalance: while n has a parent, balance that parent and move up. -/
def rebalance (f : Nat) : Nat → St → Ref → Option St
  | 0, _, _ => none
  | g + 1, s, r =>
    match parentOf s r with
    | none => none
    | some none => some s
    | some (some p) =>
      match balance_node s p f with
      | none => none
      | some (s1, p1) => rebalance f g s1 (.inner p1)

/-- Tree._set_child: with no parent just repoint the root (and return
without rebalancing); otherwise write the child slot and rebalance
starting from the child. -/
def set_child (s : St) (p : Option Nat) (child : Ref) (isl : Bool) (f : Nat) :
    Option St :=
  match p with
  | none => some { s with root := child }
  | some pi =>
    match (if isl then setLeft s pi child else setRight s pi child) with
    | none => none
    | some s1 => rebalance f f s1 child

/-- InnerNode(val): fresh node with Empty children; __post_init__ points
the sentinel's parent at the new node and caches height 1. -/
def mkInner (s : St) (v : Int) : St × Nat :=
  let i := s.nextId
  ({ writeNode s i { value := v, left := .empty, right := .empty,
                     height := 1, parent := none } with
     emptyParent := some i, nextId := i + 1 }, i)

/-- Descent loop of Tree.insert; a duplicate key returns the state
unchanged, an Empty slot attaches a new leaf via _set_child. -/
def insertLoop (v : Int) : Nat → St → Ref → Option Nat → Bool → Option St
  | 0, _, _, _, _ => none
  | f + 1, s, t, p, wl =>
    match t with
    | .empty =>
      let (s1, i) := mkInner s v
      set_child s1 p (.inner i) wl f
    | .inner i =>
      match s.nodes i with
      | none => none
      | some d =>
        if v = d.value then some s
        else if v < d.value then insertLoop v f s d.left (some i) true
        else insertLoop v f s d.right (some i) false

/-- Tree.insert. -/
def insert (s : St) (v : Int) (f : Nat) : Option St :=
  insertLoop v f s s.root none true

/-- Loop of Tree.__contains__. -/
def containsLoop (v : Int) : Nat → St → Ref → Option Bool
  | 0, _, _ => none
  | f + 1, s, t =>
    match t with
    | .empty => some false
    | .inner i =>
      match s.nodes i with
      | none => none
      | some d =>
        if d.value = v then some true
        else if v < d.value then containsLoop v f s d.left
        else containsLoop v f s d.right

/-- Tree.__contains__. -/
def contains (s : St) (v : Int) (f : Nat) : Option Bool :=
  containsLoop v f s s.root

/-- Loop of rightmost: follow right children, return the last value. -/
def rightmostLoop : Nat → St → Nat → Option Int
  | 0, _, _ => none
  | f + 1, s, i =>
    match s.nodes i with
    | none => none
    | some d =>
      match d.right with
      | .empty => some d.value
      | .inner j => rightmostLoop f s j

/-- rightmost(t): asserts t is not Empty. -/
def rightmost (s : St) (t : Ref) (f : Nat) : Option Int :=
  match t with
  | .empty => none
  | .inner i => rightmostLoop f s i

/-- Tree._remove: descend to the key; a leaf-or-one-child match is replaced
through _set_child, a two-child match copies up the rightmost value of the
left subtree and removes it recursively from there. -/
def removeLoop (v : Int) : Nat → St → Ref → Option Nat → Bool → Option St
  | 0, _, _, _, _ => none
  | f + 1, s, t, p, wl =>
    match t with
    | .empty => some s
    | .inner i =>
      match s.nodes i with
      | none => none
      | some d =>
        if v = d.value then
          if d.left = .empty then set_child s p d.right wl f
          else if d.right = .empty then set_child s p d.left wl f
          else
            match rightmost s d.left f with
            | none => none
            | some rv =>
              match setValue s i rv with
              | none => none
              | some s1 => removeLoop rv f s1 d.left (some i) true
        else if v < d.value then removeLoop v f s d.left (some i) true
        else removeLoop v f s d.right (some i) false

/-- Tree.remove. -/
def removeOp (s : St) (v : Int) (f : Nat) : Option St :=
  removeLoop v f s s.root none true

/-- One public mutating operation. -/
inductive Op where
  | ins (v : Int)
  | rem (v : Int)
  deriving Repr, DecidableEq

/-- Apply one operation with default fuel. -/
def applyOp (s : St) (o : Op) : Option St :=
  match o with
  | .ins v => insert s v 100
  | .rem v => removeOp s v 100

/-- Run a sequence of operations on a fresh tree. -/
def runOps (ops : List Op) : Option St :=
  ops.foldl (fun acc o => acc.bind (fun s => applyOp s o)) (some initSt)

/-! ## Structural checkers (recomputed by traversal, used to state the
spec-level invariants about a heap state). -/

/-- Real height of the structure reachable from a reference. -/
def realHeight : Nat → St → Ref → Option Int
  | 0, _, _ => none
  | _ + 1, _, .empty => some 0
  | f + 1, s, .inner i =>
    match s.nodes i with
    | none => none
    | some d =>
      match realHeight f s d.left, realHeight f s d.right with
      | some hl, some hr => some (1 + max hl hr)
      | _, _ => none

/-- Every reachable node has real balance factor in [-1, 1]. -/
def ballReal : Nat → St → Ref → Option Bool
  | 0, _, _ => none
  | _ + 1, _, .empty => some true
  | f + 1, s, .inner i =>
    match s.nodes i with
    | none => none
    | some d =>
      match realHeight f s d.left, realHeight f s d.right,
            ballReal f s d.left, ballReal f s d.right with
      | some hl, some hr, some bl, some br =>
        some (decide (-1 ≤ hr - hl) && decide (hr - hl ≤ 1) && bl && br)
      | _, _, _, _ => none

/-- Every reachable inner node caches height = 1 + max of the children's
cached heights. -/
def heightsOK : Nat → St → Ref → Option Bool
  | 0, _, _ => none
  | _ + 1, _, .empty => some true
  | f + 1, s, .inner i =>
    match s.nodes i with
    | none => none
    | some d =>
      match heightOf s d.left, heightOf s d.right,
            heightsOK f s d.left, heightsOK f s d.right with
      | some hl, some hr, some bl, some br =>
        some (decide (d.height = 1 + max hl hr) && bl && br)
      | _, _, _, _ => none

/-- Search-tree order with optional strict bounds. -/
def bstOK : Nat → St → Ref → Option Int → Option Int → Option Bool
  | 0, _, _, _, _ => none
  | _ + 1, _, .empty, _, _ => some true
  | f + 1, s, .inner i, lo, hi =>
    match s.nodes i with
    | none => none
    | some d =>
      match bstOK f s d.left lo (some d.value),
            bstOK f s d.right (some d.value) hi with
      | some bl, some br =>
        some ((match lo with | none => true | some a => decide (a < d.value)) &&
              (match hi with | none => true | some b => decide (d.value < b)) &&
              bl && br)
      | _, _ => none

/-- Parent consistency below a node: each inner child points back to its
parent. -/
def parentsBelowOK : Nat → St → Nat → Option Bool
  | 0, _, _ => none
  | f + 1, s, i =>
    match s.nodes i with
    | none => none
    | some d =>
      let okL :=
        match d.left with
        | .empty => some true
        | .inner j =>
          match s.nodes j with
          | none => none
          | some jd =>
            match parentsBelowOK f s j with
            | none => none
            | some b => some (decide (jd.parent = some i) && b)
      let okR :=
        match d.right with
        | .empty => some true
        | .inner j =>
          match s.nodes j with
          | none => none
          | some jd =>
            match parentsBelowOK f s j with
            | none => none
            | some b => some (decide (jd.parent = some i) && b)
      match okL, okR with
      | some a, some b => some (a && b)
      | _, _ => none

/-- Parent consistency of the whole tree: the root's parent is none and
every reachable child's parent points at the node owning it. -/
def parentsOK (f : Nat) (s : St) : Option Bool :=
  match s.root with
  | .empty => some true
  | .inner i =>
    match s.nodes i with
    | none => none
    | some d =>
      match parentsBelowOK f s i with
      | none => none
      | some b => some (decide (d.parent = none) && b)

/-- Balance check of test_st.is_balanced: every reachable node has cached
balance factor strictly between -2 and +2. -/
def is_balanced : Nat → St → Ref → Option Bool
  | 0, _, _ => none
  | _ + 1, _, .empty => some true
  | f + 1, s, .inner i =>
    match bfOf s (.inner i) with
    | none => none
    | some b =>
      match s.nodes i with
      | none => none
      | some d =>
        match is_balanced f s d.left, is_balanced f s d.right with
        | some bl, some br =>
          some (decide (-2 < b) && decide (b < 2) && bl && br)
        | _, _ => none

/-- One-node state holding key 1 (used to instantiate the no-op theorem). -/
def c5St : St :=
  { nodes := fun j => if j = 0 then some ⟨1, .empty, .empty, 1, none⟩ else none,
    emptyParent := some 0, root := .inner 0, nextId := 1 }

/-- Height-consistent, parent-consistent, BST-ordered heap on which
_rot_left exhibits the stale parent height: node 1 (key 12) is the right
child of node 0 (key 10) and has bf +2. -/
def c7St : St :=
  { nodes := fun j =>
      if j = 0 then some ⟨10, .inner 5, .inner 1, 4, none⟩
      else if j = 1 then some ⟨12, .empty, .inner 2, 3, some 0⟩
      else if j = 2 then some ⟨16, .inner 3, .inner 4, 2, some 1⟩
      else if j = 3 then some ⟨14, .empty, .empty, 1, some 2⟩
      else if j = 4 then some ⟨18, .empty, .empty, 1, some 2⟩
      else if j = 5 then some ⟨5, .inner 6, .empty, 2, some 0⟩
      else if j = 6 then some ⟨3, .empty, .empty, 1, some 5⟩
      else none,
    emptyParent := none, root := .inner 0, nextId := 7 }

/-! ## Claim theorems -/

/-- Well-formed subtree claim: the references reachable from r form a
tree whose node records are height-consistent (cached height = max of the
children's cached heights + 1), balanced (|bf| <= 1 at every node), in
strict search order within (lo, hi), with child parent pointers set to
the owning node, the listed ids pairwise distinct, and the root record's
parent equal to par. -/
inductive SubWF : St → Ref → Int → List Nat → Int → Int → Option Nat → Prop where
  | empty (s : St) (lo hi : Int) (par : Option Nat) : SubWF s .empty 0 [] lo hi par
  | node (s : St) (i : Nat) (v : Int) (lr rr : Ref) (hl hr : Int)
      (lids rids : List Nat) (lo hi : Int) (par : Option Nat) :
      lo < v → v < hi →
      s.nodes i = some ⟨v, lr, rr, max hl hr + 1, par⟩ →
      SubWF s lr hl lids lo v (some i) →
      SubWF s rr hr rids v hi (some i) →
      -1 ≤ hr - hl → hr - hl ≤ 1 →
      (i :: (lids ++ rids)).Nodup →
      SubWF s (.inner i) (max hl hr + 1) (i :: (lids ++ rids)) lo hi par

/-- A one-node height-consistent heap used to exercise _balance_node. -/
def c6WSt : St :=
  { nodes := fun j => if j = 0 then some ⟨0, .empty, .empty, 1, none⟩ else none,
    emptyParent := none, root := .inner 0, nextId := 1 }

/-- C1: the claim that after every completed insert/remove each reachable
node has balance factor in {-1, 0, 1} fails on the code: after inserting
6, 5, 3, 1, 2, 4, 0 and removing 6, the node holding 5 has balance factor
-2 (its left subtree has height 2, its right is Empty), both for cached
and for recomputed heights.  This matches the repository's own annotated
expected failure of test_balanced. -/
theorem c1_balance_invariant_fails :
    ((runOps [.ins 6, .ins 5, .ins 3, .ins 1, .ins 2, .ins 4, .ins 0,
              .rem 6]).bind
      (fun s => is_balanced 50 s s.root)) = some false ∧
    ((runOps [.ins 6, .ins 5, .ins 3, .ins 1, .ins 2, .ins 4, .ins 0,
              .rem 6]).bind
      (fun s => ballReal 50 s s.root)) = some false := by
  constructor <;> rfl

/-- C2: the claim that after every completed operation each reachable
Inner node caches height = 1 + max of its children's heights fails: after
inserting 2, 1, 3, 4 the root (key 2) still caches height 2 although its
children cache heights 1 and 2. -/
theorem c2_height_consistency_fails :
    ((runOps [.ins 2, .ins 1, .ins 3, .ins 4]).bind
      (fun s => heightsOK 50 s s.root)) = some false := by
  rfl

/-- C3: the claim that the search-tree order holds after every completed
operation fails: after insert 1, insert 2, remove 1, insert 0, the root
holds key 0 with the (resurrected) node holding key 1 as its left child,
so a key greater than the node key sits in a left subtree. -/
theorem c3_bst_order_fails :
    ((runOps [.ins 1, .ins 2, .rem 1, .ins 0]).bind
      (fun s => bstOK 50 s s.root none none)) = some false := by
  rfl

/-- C4: the round-trip membership claim fails because an operation of the
insert-then-remove regime crashes: after inserting 6, 5, 3, 1, 2, 4, 0
and removing 6 (all keys then answer membership correctly, and 0 is still
present), removing 0 raises AssertionError in _balance_node (the root has
bf +2 while its right child has bf -2, so no rotation case applies and
the final assert fails), modelled as the operation returning none. -/
theorem c4_roundtrip_membership_fails :
    ((runOps [.ins 6, .ins 5, .ins 3, .ins 1, .ins 2, .ins 4, .ins 0,
              .rem 6]).bind
      (fun s => contains s 0 100)) = some true ∧
    runOps [.ins 6, .ins 5, .ins 3, .ins 1, .ins 2, .ins 4, .ins 0,
            .rem 6, .rem 0] = none := by
  constructor <;> rfl

/-- Insert descends exactly like contains, so when the key is found the
loop returns the state unchanged before any mutation. -/
theorem insertLoop_of_found (v : Int) (f : Nat) :
    ∀ (s : St) (t : Ref) (p : Option Nat) (wl : Bool),
      containsLoop v f s t = some true → insertLoop v f s t p wl = some s := by
  induction f with
  | zero =>
    intro s t p wl h
    simp [containsLoop] at h
  | succ f ih =>
    intro s t p wl h
    cases t with
    | empty => simp [containsLoop] at h
    | inner i =>
      cases hn : s.nodes i with
      | none => simp [containsLoop, hn] at h
      | some d =>
        rw [containsLoop] at h
        rw [insertLoop]
        simp only [hn] at h ⊢
        by_cases he : d.value = v
        · simp [he]
        · have hne : ¬ v = d.value := fun hv => he hv.symm
          simp only [if_neg he] at h
          simp only [if_neg hne]
          by_cases hlt : v < d.value
          · simp only [if_pos hlt] at h ⊢
            exact ih s d.left (some i) true h
          · simp only [if_neg hlt] at h ⊢
            exact ih s d.right (some i) false h

/-- Remove descends exactly like contains, so when the key is absent the
loop falls off an Empty slot and returns the state unchanged. -/
theorem removeLoop_of_absent (v : Int) (f : Nat) :
    ∀ (s : St) (t : Ref) (p : Option Nat) (wl : Bool),
      containsLoop v f s t = some false → removeLoop v f s t p wl = some s := by
  induction f with
  | zero =>
    intro s t p wl h
    simp [containsLoop] at h
  | succ f ih =>
    intro s t p wl h
    cases t with
    | empty => rw [removeLoop]
    | inner i =>
      cases hn : s.nodes i with
      | none => simp [containsLoop, hn] at h
      | some d =>
        rw [containsLoop] at h
        rw [removeLoop]
        simp only [hn] at h ⊢
        by_cases he : d.value = v
        · simp [he] at h
        · have hne : ¬ v = d.value := fun hv => he hv.symm
          simp only [if_neg he] at h
          simp only [if_neg hne]
          by_cases hlt : v < d.value
          · simp only [if_pos hlt] at h ⊢
            exact ih s d.left (some i) true h
          · simp only [if_neg hlt] at h ⊢
            exact ih s d.right (some i) false h

/-- C5: the two documented no-op conditions are silent no-ops: inserting
a key the tree contains returns before any mutation, and removing a key
the tree does not contain falls off an Empty slot, so both leave the
state (hence the tree, structurally and value-wise) unchanged and raise
no error. -/
theorem c5_noop_conditions (s : St) (v w : Int) (f g : Nat)
    (hv : contains s v f = some true) (hw : contains s w g = some false) :
    insert s v f = some s ∧ removeOp s w g = some s :=
  ⟨insertLoop_of_found v f s s.root none true hv,
   removeLoop_of_absent w g s s.root none true hw⟩

/-- Witness: on the one-node tree holding 1, key 1 is contained and key 2
is not, so inserting 1 and removing 2 both return the state unchanged. -/
theorem c5_noop_conditions_witness :
    insert c5St 1 100 = some c5St ∧ removeOp c5St 2 100 = some c5St :=
  c5_noop_conditions c5St 1 2 100 100 (by rfl) (by rfl)

/-- C7: _rot_left(x) does reattach y, rewire the three links and return y,
and it recomputes x's and y's cached heights bottom-up; but the claim that
the cached heights of all affected nodes are left correctly recomputed
fails: the former parent's height is recomputed at reattachment time,
before y's height is updated, so it uses y's pre-rotation height.  On
c7St (fully height-consistent beforehand), rotating node 1 leaves node 0
caching height 3 although its children then cache heights 2 and 3. -/
theorem c7_rotate_left_height_stale :
    heightsOK 50 c7St c7St.root = some true ∧
    (rot_left c7St 1 100).map (·.2) = some 2 ∧
    ((rot_left c7St 1 100).bind
      (fun p => heightsOK 50 p.1 (.inner 2))) = some true ∧
    ((rot_left c7St 1 100).bind
      (fun p => (p.1.nodes 0).map (·.height))) = some 3 ∧
    ((rot_left c7St 1 100).bind
      (fun p => heightsOK 50 p.1 p.1.root)) = some false := by
  refine ⟨?_, ?_, ?_, ?_, ?_⟩ <;> rfl

/-- C8 counterexample: the claim that no operation ever assigns the Empty
sentinel a parent is false: the very first insert constructs an InnerNode
whose __post_init__ sets Empty.parent to the new node. -/
theorem c8_empty_parent_assigned :
    ¬ ((runOps [.ins 1]).map (·.emptyParent) = some none) := by
  decide

/-- C8 amended: the Empty sentinel's structural answers (left, right,
height, bf, value) are fixed, but its parent attribute is mutable state
that node construction and child-slot writes reassign: inserting any
value into the empty tree leaves Empty.parent pointing at the new node. -/
theorem c8_empty_parent_mutated (v : Int) :
    (insert initSt v 100).map (·.emptyParent) = some (some 0) := by
  rfl

/-- C9: the claim that parent consistency (including a parent-free root)
holds after every completed operation fails: after insert 1, insert 2,
remove 1, the new root (key 2) still has the removed node as its parent,
because _set_child's root branch never clears the child's parent. -/
theorem c9_parent_consistency_fails :
    ((runOps [.ins 1, .ins 2, .rem 1]).bind
      (fun s => parentsOK 50 s)) = some false := by
  rfl

/-- C10: structural queries on the Empty sentinel are total in any state:
left and right return Empty itself, height is 0, bf is 0, and only value
raises (returns none). -/
theorem c10_empty_queries_total (s : St) :
    leftOf s .empty = some .empty ∧ rightOf s .empty = some .empty ∧
    heightOf s .empty = some 0 ∧ bfOf s .empty = some 0 ∧
    valueOf s .empty = none := by
  exact ⟨rfl, rfl, rfl, rfl, rfl⟩

end STree

namespace STree

/-- Reading the cell a write just targeted. -/
theorem nodes_writeNode_self (s : St) (i : Nat) (d : NodeData) :
    (writeNode s i d).nodes i = some d := by
  simp [writeNode]

/-- Reading a cell a write did not target. -/
theorem nodes_writeNode_ne (s : St) (i j : Nat) (d : NodeData) (h : j ≠ i) :
    (writeNode s i d).nodes j = s.nodes j := by
  simp [writeNode, h]

/-- Writes never erase cells. -/
theorem isSome_nodes_writeNode (s : St) (i j : Nat) (d : NodeData)
    (h : (s.nodes j).isSome) : ((writeNode s i d).nodes j).isSome := by
  by_cases hj : j = i
  · subst hj; simp [writeNode]
  · simpa [writeNode, hj] using h

/-- Heights are read through cells only, so cell-preserving maps preserve
readability of heights. -/
theorem isSome_heightOf_mono (s s1 : St)
    (h : ∀ j, (s.nodes j).isSome → (s1.nodes j).isSome) (r : Ref)
    (hr : (heightOf s r).isSome) : (heightOf s1 r).isSome := by
  cases r with
  | empty => simp [heightOf]
  | inner i =>
    simp only [heightOf, Option.isSome_map'] at hr ⊢
    exact h i hr

/-- Heights only depend on the referenced cell. -/
theorem heightOf_congr (s s1 : St) (r : Ref)
    (h : ∀ j, r = .inner j → s1.nodes j = s.nodes j) :
    heightOf s1 r = heightOf s r := by
  cases r with
  | empty => rfl
  | inner j => simp [heightOf, h j rfl]

/-- Effect of the left setter when the new child is a well-separated
reference: the slot, the child's parent and the cached height are updated
and nothing else changes. -/
theorem setLeft_run (s : St) (i : Nat) (d : NodeData) (val : Ref) (hv hr : Int)
    (hi : s.nodes i = some d)
    (hdist : ∀ j, val = .inner j → j ≠ i)
    (hhv : heightOf s val = some hv)
    (hhr : heightOf s d.right = some hr)
    (hrd : ∀ cj, d.right = .inner cj → (∀ j, val = .inner j → cj ≠ j) ∧ cj ≠ i) :
    ∃ s1, setLeft s i val = some s1 ∧
      s1.nodes i = some { d with left := val, height := max hv hr + 1 } ∧
      (∀ j, val = .inner j → ∃ jd, s.nodes j = some jd ∧
          s1.nodes j = some { jd with parent := some i }) ∧
      (∀ j, j ≠ i → (∀ k, val = .inner k → j ≠ k) → s1.nodes j = s.nodes j) ∧
      (∀ j, (s.nodes j).isSome → (s1.nodes j).isSome) ∧
      s1.root = s.root := by
  cases val with
  | empty =>
    have hv0 : hv = (0 : Int) := by
      simp only [heightOf] at hhv
      exact ((Option.some.injEq _ _).mp hhv).symm
    subst hv0
    refine ⟨writeNode ({ writeNode s i { d with left := Ref.empty } with
        emptyParent := some i } : St) i
        { d with left := Ref.empty, height := max 0 hr + 1 }, ?_, ?_, ?_, ?_, ?_, ?_⟩
    · rw [setLeft, hi]
      rcases hdr : d.right with _ | cj
      · rw [hdr] at hhr
        have hr0 : hr = (0 : Int) := by
          simp only [heightOf] at hhr
          exact ((Option.some.injEq _ _).mp hhr).symm
        subst hr0
        simp [writeParent, writeNode, heightOf, hdr]
      · have hcji : cj ≠ i := (hrd cj hdr).2
        rw [hdr] at hhr
        simp only [heightOf] at hhr
        simp [writeParent, writeNode, heightOf, hdr, hcji, hhr]
    · exact nodes_writeNode_self _ _ _
    · intro j hj; cases hj
    · intro j hj _
      rw [nodes_writeNode_ne _ _ _ _ hj]
      exact nodes_writeNode_ne _ _ _ _ hj
    · intro j hj
      exact isSome_nodes_writeNode _ _ _ _ (isSome_nodes_writeNode _ _ _ _ hj)
    · rfl
  | inner v =>
    have hvne : v ≠ i := hdist v rfl
    cases hvd : s.nodes v with
    | none =>
      simp only [heightOf, hvd, Option.map_none'] at hhv
      exact Option.noConfusion hhv
    | some vd =>
    have hvh : vd.height = hv := by
      simp only [heightOf, hvd, Option.map_some'] at hhv
      exact (Option.some.injEq _ _).mp hhv
    refine ⟨writeNode (writeNode (writeNode s i { d with left := Ref.inner v }) v
        { vd with parent := some i }) i
        { d with left := Ref.inner v, height := max hv hr + 1 }, ?_, ?_, ?_, ?_, ?_, ?_⟩
    · rw [setLeft, hi]
      rcases hdr : d.right with _ | cj
      · rw [hdr] at hhr
        have hr0 : hr = (0 : Int) := by
          simp only [heightOf] at hhr
          exact ((Option.some.injEq _ _).mp hhr).symm
        subst hr0
        simp [writeParent, writeNode, heightOf, hdr, hvne, hvne.symm, hvd, hvh]
      · have hcji : cj ≠ i := (hrd cj hdr).2
        have hcjv : cj ≠ v := (hrd cj hdr).1 v rfl
        rw [hdr] at hhr
        simp only [heightOf] at hhr
        simp [writeParent, writeNode, heightOf, hdr, hvne, hvne.symm, hvd, hvh,
          hcji, hcjv, hhr]
    · exact nodes_writeNode_self _ _ _
    · intro j hj
      cases hj
      refine ⟨vd, hvd, ?_⟩
      rw [nodes_writeNode_ne _ _ _ _ hvne]
      exact nodes_writeNode_self _ _ _
    · intro j hj hjk
      rw [nodes_writeNode_ne _ _ _ _ hj,
          nodes_writeNode_ne _ _ _ _ (hjk v rfl),
          nodes_writeNode_ne _ _ _ _ hj]
    · intro j hj
      exact isSome_nodes_writeNode _ _ _ _ (isSome_nodes_writeNode _ _ _ _
        (isSome_nodes_writeNode _ _ _ _ hj))
    · rfl

/-- Effect of the right setter, mirror of setLeft_run. -/
theorem setRight_run (s : St) (i : Nat) (d : NodeData) (val : Ref) (hl hv : Int)
    (hi : s.nodes i = some d)
    (hdist : ∀ j, val = .inner j → j ≠ i)
    (hhl : heightOf s d.left = some hl)
    (hhv : heightOf s val = some hv)
    (hld : ∀ cj, d.left = .inner cj → (∀ j, val = .inner j → cj ≠ j) ∧ cj ≠ i) :
    ∃ s1, setRight s i val = some s1 ∧
      s1.nodes i = some { d with right := val, height := max hl hv + 1 } ∧
      (∀ j, val = .inner j → ∃ jd, s.nodes j = some jd ∧
          s1.nodes j = some { jd with parent := some i }) ∧
      (∀ j, j ≠ i → (∀ k, val = .inner k → j ≠ k) → s1.nodes j = s.nodes j) ∧
      (∀ j, (s.nodes j).isSome → (s1.nodes j).isSome) ∧
      s1.root = s.root := by
  cases val with
  | empty =>
    have hv0 : hv = (0 : Int) := by
      simp only [heightOf] at hhv
      exact ((Option.some.injEq _ _).mp hhv).symm
    subst hv0
    refine ⟨writeNode ({ writeNode s i { d with right := Ref.empty } with
        emptyParent := some i } : St) i
        { d with right := Ref.empty, height := max hl 0 + 1 }, ?_, ?_, ?_, ?_, ?_, ?_⟩
    · rw [setRight, hi]
      rcases hdl : d.left with _ | cj
      · rw [hdl] at hhl
        have hl0 : hl = (0 : Int) := by
          simp only [heightOf] at hhl
          exact ((Option.some.injEq _ _).mp hhl).symm
        subst hl0
        simp [writeParent, writeNode, heightOf, hdl]
      · have hcji : cj ≠ i := (hld cj hdl).2
        rw [hdl] at hhl
        simp only [heightOf] at hhl
        simp [writeParent, writeNode, heightOf, hdl, hcji, hhl]
    · exact nodes_writeNode_self _ _ _
    · intro j hj; cases hj
    · intro j hj _
      rw [nodes_writeNode_ne _ _ _ _ hj]
      exact nodes_writeNode_ne _ _ _ _ hj
    · intro j hj
      exact isSome_nodes_writeNode _ _ _ _ (isSome_nodes_writeNode _ _ _ _ hj)
    · rfl
  | inner v =>
    have hvne : v ≠ i := hdist v rfl
    cases hvd : s.nodes v with
    | none =>
      simp only [heightOf, hvd, Option.map_none'] at hhv
      exact Option.noConfusion hhv
    | some vd =>
    have hvh : vd.height = hv := by
      simp only [heightOf, hvd, Option.map_some'] at hhv
      exact (Option.some.injEq _ _).mp hhv
    refine ⟨writeNode (writeNode (writeNode s i { d with right := Ref.inner v }) v
        { vd with parent := some i }) i
        { d with right := Ref.inner v, height := max hl hv + 1 }, ?_, ?_, ?_, ?_, ?_, ?_⟩
    · rw [setRight, hi]
      rcases hdl : d.left with _ | cj
      · rw [hdl] at hhl
        have hl0 : hl = (0 : Int) := by
          simp only [heightOf] at hhl
          exact ((Option.some.injEq _ _).mp hhl).symm
        subst hl0
        simp [writeParent, writeNode, heightOf, hdl, hvne, hvne.symm, hvd, hvh]
      · have hcji : cj ≠ i := (hld cj hdl).2
        have hcjv : cj ≠ v := (hld cj hdl).1 v rfl
        rw [hdl] at hhl
        simp only [heightOf] at hhl
        simp [writeParent, writeNode, heightOf, hdl, hvne, hvne.symm, hvd, hvh,
          hcji, hcjv, hhl]
    · exact nodes_writeNode_self _ _ _
    · intro j hj
      cases hj
      refine ⟨vd, hvd, ?_⟩
      rw [nodes_writeNode_ne _ _ _ _ hvne]
      exact nodes_writeNode_self _ _ _
    · intro j hj hjk
      rw [nodes_writeNode_ne _ _ _ _ hj,
          nodes_writeNode_ne _ _ _ _ (hjk v rfl),
          nodes_writeNode_ne _ _ _ _ hj]
    · intro j hj
      exact isSome_nodes_writeNode _ _ _ _ (isSome_nodes_writeNode _ _ _ _
        (isSome_nodes_writeNode _ _ _ _ hj))
    · rfl

/-- Weak effect of writing either child slot of q to the inner node yi,
when nothing is known about q's other child except that its height is
readable: the write succeeds, yi's record only gains parent q, and only
q and yi are touched. -/
theorem setSlot_run_weak (s : St) (q yi : Nat) (qd yd : NodeData) (isl : Bool)
    (hq : s.nodes q = some qd) (hy : s.nodes yi = some yd) (hne : q ≠ yi)
    (hhl : (heightOf s qd.left).isSome) (hhr : (heightOf s qd.right).isSome) :
    ∃ sB, (if isl then setLeft s q (.inner yi) else setRight s q (.inner yi)) = some sB ∧
      sB.nodes yi = some { yd with parent := some q } ∧
      (∃ e, sB.nodes q = some e) ∧
      (∀ j, j ≠ yi → j ≠ q → sB.nodes j = s.nodes j) ∧
      (∀ j, (s.nodes j).isSome → (sB.nodes j).isSome) := by
  have hmono2 : ∀ j, (s.nodes j).isSome →
      ((writeNode (writeNode s q { qd with left := Ref.inner yi }) yi
        { yd with parent := some q }).nodes j).isSome := by
    intro j hj
    exact isSome_nodes_writeNode _ _ _ _ (isSome_nodes_writeNode _ _ _ _ hj)
  have hmono2r : ∀ j, (s.nodes j).isSome →
      ((writeNode (writeNode s q { qd with right := Ref.inner yi }) yi
        { yd with parent := some q }).nodes j).isSome := by
    intro j hj
    exact isSome_nodes_writeNode _ _ _ _ (isSome_nodes_writeNode _ _ _ _ hj)
  cases isl with
  | true =>
    have e1 : (writeNode s q { qd with left := Ref.inner yi }).nodes yi = some yd := by
      rw [nodes_writeNode_ne _ _ _ _ (Ne.symm hne)]; exact hy
    have e2 : (writeNode (writeNode s q { qd with left := Ref.inner yi }) yi
        { yd with parent := some q }).nodes q = some { qd with left := Ref.inner yi } := by
      rw [nodes_writeNode_ne _ _ _ _ hne]
      exact nodes_writeNode_self _ _ _
    have e3 : heightOf (writeNode (writeNode s q { qd with left := Ref.inner yi }) yi
        { yd with parent := some q }) (Ref.inner yi) = some yd.height := by
      simp [heightOf, nodes_writeNode_self]
    obtain ⟨hrv, e4⟩ := Option.isSome_iff_exists.mp
      (isSome_heightOf_mono s _ hmono2 qd.right hhr)
    refine ⟨writeNode (writeNode (writeNode s q { qd with left := Ref.inner yi }) yi
        { yd with parent := some q }) q
        { qd with left := Ref.inner yi, height := max yd.height hrv + 1 },
        ?_, ?_, ⟨_, nodes_writeNode_self _ _ _⟩, ?_, ?_⟩
    · rw [if_pos rfl, setLeft, hq]
      simp only [writeParent, e1, e2, e3, e4]
    · rw [nodes_writeNode_ne _ _ _ _ (Ne.symm hne)]
      exact nodes_writeNode_self _ _ _
    · intro j hj hjq
      rw [nodes_writeNode_ne _ _ _ _ hjq, nodes_writeNode_ne _ _ _ _ hj,
          nodes_writeNode_ne _ _ _ _ hjq]
    · intro j hj
      exact isSome_nodes_writeNode _ _ _ _ (hmono2 j hj)
  | false =>
    have e1 : (writeNode s q { qd with right := Ref.inner yi }).nodes yi = some yd := by
      rw [nodes_writeNode_ne _ _ _ _ (Ne.symm hne)]; exact hy
    have e2 : (writeNode (writeNode s q { qd with right := Ref.inner yi }) yi
        { yd with parent := some q }).nodes q = some { qd with right := Ref.inner yi } := by
      rw [nodes_writeNode_ne _ _ _ _ hne]
      exact nodes_writeNode_self _ _ _
    have e3 : heightOf (writeNode (writeNode s q { qd with right := Ref.inner yi }) yi
        { yd with parent := some q }) (Ref.inner yi) = some yd.height := by
      simp [heightOf, nodes_writeNode_self]
    obtain ⟨hlv, e4⟩ := Option.isSome_iff_exists.mp
      (isSome_heightOf_mono s _ hmono2r qd.left hhl)
    refine ⟨writeNode (writeNode (writeNode s q { qd with right := Ref.inner yi }) yi
        { yd with parent := some q }) q
        { qd with right := Ref.inner yi, height := max hlv yd.height + 1 },
        ?_, ?_, ⟨_, nodes_writeNode_self _ _ _⟩, ?_, ?_⟩
    · rw [if_neg (by simp), setRight, hq]
      simp only [writeParent, e1, e2, e3, e4]
    · rw [nodes_writeNode_ne _ _ _ _ (Ne.symm hne)]
      exact nodes_writeNode_self _ _ _
    · intro j hj hjq
      rw [nodes_writeNode_ne _ _ _ _ hjq, nodes_writeNode_ne _ _ _ _ hj,
          nodes_writeNode_ne _ _ _ _ hjq]
    · intro j hj
      exact isSome_nodes_writeNode _ _ _ _ (hmono2r j hj)

/-- Effect of _set_parent when both nodes are Inner: the new node keeps
its fields except possibly its parent, the old node is untouched, and
only the new node and the old node's parent can be written. -/
theorem set_parent_run (s : St) (x yi : Nat) (xd yd : NodeData) (f : Nat)
    (hx : s.nodes x = some xd) (hy : s.nodes yi = some yd) (hxy : x ≠ yi)
    (hpar : xd.parent = none ∨ ∃ q qd, xd.parent = some q ∧ s.nodes q = some qd ∧
            q ≠ x ∧ q ≠ yi ∧
            (heightOf s qd.left).isSome ∧ (heightOf s qd.right).isSome) :
    ∃ sB pp, set_parent s (.inner yi) (.inner x) f = some sB ∧
      sB.nodes x = some xd ∧
      sB.nodes yi = some { yd with parent := pp } ∧
      (∀ j, j ≠ yi → (∀ q, xd.parent = some q → j ≠ q) → sB.nodes j = s.nodes j) ∧
      (∀ j, (s.nodes j).isSome → (sB.nodes j).isSome) := by
  rcases hpar with hnone | ⟨q, qd, hq, hqd, hqx, hqyi, hql, hqr⟩
  · refine ⟨writeNode { s with root := .inner yi } yi { yd with parent := none },
      none, ?_, ?_, ?_, ?_, ?_⟩
    · rw [set_parent]
      simp only [parentOf, hx, Option.map_some', hnone, writeParent]
      have hroot : ({ s with root := Ref.inner yi } : St).nodes yi = some yd := hy
      rw [hroot]
    · rw [nodes_writeNode_ne _ _ _ _ hxy]; exact hx
    · exact nodes_writeNode_self _ _ _
    · intro j hj _; rw [nodes_writeNode_ne _ _ _ _ hj]
    · intro j hj; exact isSome_nodes_writeNode _ _ _ _ hj
  · have hparx : parentOf s (.inner x) = some (some q) := by
      simp [parentOf, hx, hq]
    have hAx : (writeNode s yi { yd with parent := some q }).nodes x = some xd := by
      rw [nodes_writeNode_ne _ _ _ _ hxy]; exact hx
    have hAyi : (writeNode s yi { yd with parent := some q }).nodes yi =
        some { yd with parent := some q } := nodes_writeNode_self _ _ _
    have hAq : (writeNode s yi { yd with parent := some q }).nodes q = some qd := by
      rw [nodes_writeNode_ne _ _ _ _ hqyi]; exact hqd
    have hwp : writeParent s (.inner yi) (some q) =
        some (writeNode s yi { yd with parent := some q }) := by
      simp [writeParent, hy]
    have hisl : isLeftOf (writeNode s yi { yd with parent := some q }) (.inner x) f =
        some (pyEqRef (writeNode s yi { yd with parent := some q }) f qd.left (.inner x)) := by
      simp [isLeftOf, parentOf, hAx, hq, hAq]
    have hAmono : ∀ j, (s.nodes j).isSome →
        ((writeNode s yi { yd with parent := some q }).nodes j).isSome := by
      intro j hj; exact isSome_nodes_writeNode _ _ _ _ hj
    obtain ⟨sB, hrun, hByi, hBq, hBframe, hBmono⟩ :=
      setSlot_run_weak (writeNode s yi { yd with parent := some q }) q yi qd
        { yd with parent := some q }
        (pyEqRef (writeNode s yi { yd with parent := some q }) f qd.left (.inner x))
        hAq hAyi hqyi
        (isSome_heightOf_mono s _ hAmono qd.left hql)
        (isSome_heightOf_mono s _ hAmono qd.right hqr)
    refine ⟨sB, some q, ?_, ?_, ?_, ?_, ?_⟩
    · simp only [set_parent, hparx]
      rw [hwp]
      show (match isLeftOf (writeNode s yi { yd with parent := some q }) (.inner x) f with
            | none => none
            | some il => if il
                then setLeft (writeNode s yi { yd with parent := some q }) q (.inner yi)
                else setRight (writeNode s yi { yd with parent := some q }) q (.inner yi)) = some sB
      rw [hisl]
      exact hrun
    · rw [hBframe x hxy (Ne.symm hqx)]
      exact hAx
    · exact hByi
    · intro j hj hjq
      rw [hBframe j hj (hjq q hq), nodes_writeNode_ne _ _ _ _ hj]
    · intro j hj
      exact hBmono j (hAmono j hj)

/-- Effect of _rot_left on a node x with Inner right child y, when the
referenced neighbourhood is well separated: y is reattached in x's place,
x.right becomes y's former left child, y.left becomes x, and the cached
heights of x then y are recomputed in that order. -/
theorem rot_left_run (s : St) (x yi : Nat) (xd yd : NodeData) (f : Nat) (hl hb hc : Int)
    (hx : s.nodes x = some xd)
    (hxr : xd.right = .inner yi)
    (hy : s.nodes yi = some yd)
    (hxy : x ≠ yi)
    (hhl : heightOf s xd.left = some hl)
    (hhb : heightOf s yd.left = some hb)
    (hhc : heightOf s yd.right = some hc)
    (hld : ∀ li, xd.left = .inner li → li ≠ x ∧ li ≠ yi ∧
      (∀ bi, yd.left = .inner bi → li ≠ bi) ∧ (∀ q, xd.parent = some q → li ≠ q))
    (hbd : ∀ bi, yd.left = .inner bi → bi ≠ x ∧ bi ≠ yi ∧
      (∀ q, xd.parent = some q → bi ≠ q))
    (hcd : ∀ ci, yd.right = .inner ci → ci ≠ x ∧ ci ≠ yi ∧
      (∀ bi, yd.left = .inner bi → ci ≠ bi) ∧ (∀ q, xd.parent = some q → ci ≠ q))
    (hpar : xd.parent = none ∨ ∃ q qd, xd.parent = some q ∧ s.nodes q = some qd ∧
            q ≠ x ∧ q ≠ yi ∧
            (heightOf s qd.left).isSome ∧ (heightOf s qd.right).isSome) :
    ∃ s4, rot_left s x f = some (s4, yi) ∧
      s4.nodes x = some { xd with right := yd.left, height := max hl hb + 1, parent := some yi } ∧
      (∃ pp, s4.nodes yi = some { yd with left := Ref.inner x, height := max (max hl hb + 1) hc + 1, parent := pp }) ∧
      bfOf s4 (.inner yi) = some (hc - (max hl hb + 1)) ∧
      (∀ j, j ≠ x → j ≠ yi → (∀ bi, yd.left = .inner bi → j ≠ bi) →
        (∀ q, xd.parent = some q → j ≠ q) → s4.nodes j = s.nodes j) ∧
      (∀ j, (s.nodes j).isSome → (s4.nodes j).isSome) := by
  obtain ⟨sB, pp0, hspr, hBx, hByi, hBfr, hBmono⟩ :=
    set_parent_run s x yi xd yd f hx hy hxy hpar
  have hshl : heightOf sB xd.left = some hl := by
    rw [heightOf_congr s sB xd.left
      (fun li hli => hBfr li (hld li hli).2.1 (hld li hli).2.2.2)]
    exact hhl
  have hshb : heightOf sB yd.left = some hb := by
    rw [heightOf_congr s sB yd.left
      (fun bi hbi => hBfr bi (hbd bi hbi).2.1 (hbd bi hbi).2.2)]
    exact hhb
  obtain ⟨s2, hrun2, h2x, h2val, h2fr, h2mono, h2root⟩ :=
    setRight_run sB x xd yd.left hl hb hBx
      (fun j hj => (hbd j hj).1)
      hshl hshb
      (fun cj hcj => ⟨fun j hj => (hld cj hcj).2.2.1 j hj, (hld cj hcj).1⟩)
  have h2yi : s2.nodes yi = some { yd with parent := pp0 } := by
    rw [h2fr yi (Ne.symm hxy) (fun k hk => Ne.symm ((hbd k hk).2.1))]
    exact hByi
  have h2hx : heightOf s2 (Ref.inner x) = some (max hl hb + 1) := by
    simp [heightOf, h2x]
  have h2hc : heightOf s2 yd.right = some hc := by
    rw [heightOf_congr sB s2 yd.right
      (fun ci hci => h2fr ci (hcd ci hci).1 (fun k hk => (hcd ci hci).2.2.1 k hk)),
      heightOf_congr s sB yd.right
      (fun ci hci => hBfr ci (hcd ci hci).2.1 (hcd ci hci).2.2.2)]
    exact hhc
  obtain ⟨s4, hrun4, h4yi, h4val, h4fr, h4mono, h4root⟩ :=
    setLeft_run s2 yi { yd with parent := pp0 } (Ref.inner x) (max hl hb + 1) hc
      h2yi
      (fun j hj => by cases hj; exact hxy)
      h2hx
      h2hc
      (fun cj hcj => ⟨fun j hj => by cases hj; exact (hcd cj hcj).1, (hcd cj hcj).2.1⟩)
  obtain ⟨xd2, hxd2, h4x⟩ := h4val x rfl
  have hxd2e : xd2 = { xd with right := yd.left, height := max hl hb + 1 } := by
    rw [h2x] at hxd2
    exact (Option.some.injEq _ _).mp hxd2.symm
  subst hxd2e
  have h4xv : s4.nodes x = some { xd with right := yd.left, height := max hl hb + 1, parent := some yi } := h4x
  have hfr : ∀ j, j ≠ x → j ≠ yi → (∀ bi, yd.left = .inner bi → j ≠ bi) →
      (∀ q, xd.parent = some q → j ≠ q) → s4.nodes j = s.nodes j := by
    intro j hjx hjyi hjb hjq
    rw [h4fr j hjyi (fun k hk => by cases hk; exact hjx),
        h2fr j hjx (fun k hk => hjb k hk),
        hBfr j hjyi hjq]
  have h4hc : heightOf s4 yd.right = some hc := by
    rw [heightOf_congr s2 s4 yd.right
      (fun ci hci => h4fr ci (hcd ci hci).2.1
        (fun k hk => by cases hk; exact (hcd ci hci).1))]
    exact h2hc
  refine ⟨s4, ?_, h4xv, ⟨pp0, h4yi⟩, ?_, hfr, ?_⟩
  · rw [rot_left, hx]
    show (match xd.right with
          | .empty => none
          | .inner yi2 =>
            match s.nodes yi2 with
            | none => none
            | some yd2 =>
              match set_parent s (.inner yi2) (.inner x) f with
              | none => none
              | some s1 =>
                match setRight s1 x yd2.left with
                | none => none
                | some s2a =>
                  match setLeft s2a yi2 (.inner x) with
                  | none => none
                  | some s3 => some (s3, yi2)) = some (s4, yi)
    rw [hxr]
    show (match s.nodes yi with
          | none => none
          | some yd2 =>
            match set_parent s (.inner yi) (.inner x) f with
            | none => none
            | some s1 =>
              match setRight s1 x yd2.left with
              | none => none
              | some s2a =>
                match setLeft s2a yi (.inner x) with
                | none => none
                | some s3 => some (s3, yi)) = some (s4, yi)
    rw [hy]
    show (match set_parent s (.inner yi) (.inner x) f with
          | none => none
          | some s1 =>
            match setRight s1 x yd.left with
            | none => none
            | some s2a =>
              match setLeft s2a yi (.inner x) with
              | none => none
              | some s3 => some (s3, yi)) = some (s4, yi)
    rw [hspr]
    show (match setRight sB x yd.left with
          | none => none
          | some s2a =>
            match setLeft s2a yi (.inner x) with
            | none => none
            | some s3 => some (s3, yi)) = some (s4, yi)
    rw [hrun2]
    show (match setLeft s2 yi (.inner x) with
          | none => none
          | some s3 => some (s3, yi)) = some (s4, yi)
    rw [hrun4]
  · rw [bfOf, h4yi]
    show (match heightOf s4 yd.right, heightOf s4 (Ref.inner x) with
          | some hr2, some hl2 => some (hr2 - hl2)
          | _, _ => none) = some (hc - (max hl hb + 1))
    rw [h4hc]
    show (match (some hc : Option Int), heightOf s4 (Ref.inner x) with
          | some hr2, some hl2 => some (hr2 - hl2)
          | _, _ => none) = some (hc - (max hl hb + 1))
    rw [show heightOf s4 (Ref.inner x) = some (max hl hb + 1) by simp [heightOf, h4xv]]
  · intro j hj
    exact h4mono j (h2mono j (hBmono j hj))

/-- Effect of _rot_right on a node x with Inner left child y, mirror of
rot_left_run. -/
theorem rot_right_run (s : St) (x yi : Nat) (xd yd : NodeData) (f : Nat) (ha hb hc : Int)
    (hx : s.nodes x = some xd)
    (hxl : xd.left = .inner yi)
    (hy : s.nodes yi = some yd)
    (hxy : x ≠ yi)
    (hha : heightOf s yd.left = some ha)
    (hhb : heightOf s yd.right = some hb)
    (hhc : heightOf s xd.right = some hc)
    (had : ∀ ai, yd.left = .inner ai → ai ≠ x ∧ ai ≠ yi ∧
      (∀ bi, yd.right = .inner bi → ai ≠ bi) ∧ (∀ q, xd.parent = some q → ai ≠ q))
    (hbd : ∀ bi, yd.right = .inner bi → bi ≠ x ∧ bi ≠ yi ∧
      (∀ q, xd.parent = some q → bi ≠ q))
    (hcd : ∀ ci, xd.right = .inner ci → ci ≠ x ∧ ci ≠ yi ∧
      (∀ bi, yd.right = .inner bi → ci ≠ bi) ∧ (∀ q, xd.parent = some q → ci ≠ q))
    (hpar : xd.parent = none ∨ ∃ q qd, xd.parent = some q ∧ s.nodes q = some qd ∧
            q ≠ x ∧ q ≠ yi ∧
            (heightOf s qd.left).isSome ∧ (heightOf s qd.right).isSome) :
    ∃ s4, rot_right s x f = some (s4, yi) ∧
      s4.nodes x = some { xd with left := yd.right, height := max hb hc + 1, parent := some yi } ∧
      (∃ pp, s4.nodes yi = some { yd with right := Ref.inner x, height := max ha (max hb hc + 1) + 1, parent := pp }) ∧
      bfOf s4 (.inner yi) = some ((max hb hc + 1) - ha) ∧
      (∀ j, j ≠ x → j ≠ yi → (∀ bi, yd.right = .inner bi → j ≠ bi) →
        (∀ q, xd.parent = some q → j ≠ q) → s4.nodes j = s.nodes j) ∧
      (∀ j, (s.nodes j).isSome → (s4.nodes j).isSome) := by
  obtain ⟨sB, pp0, hspr, hBx, hByi, hBfr, hBmono⟩ :=
    set_parent_run s x yi xd yd f hx hy hxy hpar
  have hshc : heightOf sB xd.right = some hc := by
    rw [heightOf_congr s sB xd.right
      (fun ci hci => hBfr ci (hcd ci hci).2.1 (hcd ci hci).2.2.2)]
    exact hhc
  have hshb : heightOf sB yd.right = some hb := by
    rw [heightOf_congr s sB yd.right
      (fun bi hbi => hBfr bi (hbd bi hbi).2.1 (hbd bi hbi).2.2)]
    exact hhb
  obtain ⟨s2, hrun2, h2x, h2val, h2fr, h2mono, h2root⟩ :=
    setLeft_run sB x xd (yd.right) hb hc hBx
      (fun j hj => (hbd j hj).1)
      hshb hshc
      (fun cj hcj => ⟨fun j hj => (hcd cj hcj).2.2.1 j hj, (hcd cj hcj).1⟩)
  have h2yi : s2.nodes yi = some { yd with parent := pp0 } := by
    rw [h2fr yi (Ne.symm hxy) (fun k hk => Ne.symm ((hbd k hk).2.1))]
    exact hByi
  have h2hx : heightOf s2 (Ref.inner x) = some (max hb hc + 1) := by
    simp [heightOf, h2x]
  have h2ha : heightOf s2 yd.left = some ha := by
    rw [heightOf_congr sB s2 yd.left
      (fun ai hai => h2fr ai (had ai hai).1 (fun k hk => (had ai hai).2.2.1 k hk)),
      heightOf_congr s sB yd.left
      (fun ai hai => hBfr ai (had ai hai).2.1 (had ai hai).2.2.2)]
    exact hha
  obtain ⟨s4, hrun4, h4yi, h4val, h4fr, h4mono, h4root⟩ :=
    setRight_run s2 yi { yd with parent := pp0 } (Ref.inner x) ha (max hb hc + 1)
      h2yi
      (fun j hj => by cases hj; exact hxy)
      h2ha
      h2hx
      (fun cj hcj => ⟨fun j hj => by cases hj; exact (had cj hcj).1, (had cj hcj).2.1⟩)
  obtain ⟨xd2, hxd2, h4x⟩ := h4val x rfl
  have hxd2e : xd2 = { xd with left := yd.right, height := max hb hc + 1 } := by
    rw [h2x] at hxd2
    exact (Option.some.injEq _ _).mp hxd2.symm
  subst hxd2e
  have h4xv : s4.nodes x = some { xd with left := yd.right, height := max hb hc + 1, parent := some yi } := h4x
  have hfr : ∀ j, j ≠ x → j ≠ yi → (∀ bi, yd.right = .inner bi → j ≠ bi) →
      (∀ q, xd.parent = some q → j ≠ q) → s4.nodes j = s.nodes j := by
    intro j hjx hjyi hjb hjq
    rw [h4fr j hjyi (fun k hk => by cases hk; exact hjx),
        h2fr j hjx (fun k hk => hjb k hk),
        hBfr j hjyi hjq]
  have h4ha : heightOf s4 yd.left = some ha := by
    rw [heightOf_congr s2 s4 yd.left
      (fun ai hai => h4fr ai (had ai hai).2.1
        (fun k hk => by cases hk; exact (had ai hai).1))]
    exact h2ha
  refine ⟨s4, ?_, h4xv, ⟨pp0, h4yi⟩, ?_, hfr, ?_⟩
  · rw [rot_right, hx]
    show (match xd.left with
          | .empty => none
          | .inner yi2 =>
            match s.nodes yi2 with
            | none => none
            | some yd2 =>
              match set_parent s (.inner yi2) (.inner x) f with
              | none => none
              | some s1 =>
                match setLeft s1 x yd2.right with
                | none => none
                | some s2a =>
                  match setRight s2a yi2 (.inner x) with
                  | none => none
                  | some s3 => some (s3, yi2)) = some (s4, yi)
    rw [hxl]
    show (match s.nodes yi with
          | none => none
          | some yd2 =>
            match set_parent s (.inner yi) (.inner x) f with
            | none => none
            | some s1 =>
              match setLeft s1 x yd2.right with
              | none => none
              | some s2a =>
                match setRight s2a yi (.inner x) with
                | none => none
                | some s3 => some (s3, yi)) = some (s4, yi)
    rw [hy]
    show (match set_parent s (.inner yi) (.inner x) f with
          | none => none
          | some s1 =>
            match setLeft s1 x yd.right with
            | none => none
            | some s2a =>
              match setRight s2a yi (.inner x) with
              | none => none
              | some s3 => some (s3, yi)) = some (s4, yi)
    rw [hspr]
    show (match setLeft sB x yd.right with
          | none => none
          | some s2a =>
            match setRight s2a yi (.inner x) with
            | none => none
            | some s3 => some (s3, yi)) = some (s4, yi)
    rw [hrun2]
    show (match setRight s2 yi (.inner x) with
          | none => none
          | some s3 => some (s3, yi)) = some (s4, yi)
    rw [hrun4]
  · rw [bfOf, h4yi]
    show (match heightOf s4 (Ref.inner x), heightOf s4 yd.left with
          | some hr2, some hl2 => some (hr2 - hl2)
          | _, _ => none) = some ((max hb hc + 1) - ha)
    rw [show heightOf s4 (Ref.inner x) = some (max hb hc + 1) by simp [heightOf, h4xv]]
    show (match (some (max hb hc + 1) : Option Int), heightOf s4 yd.left with
          | some hr2, some hl2 => some (hr2 - hl2)
          | _, _ => none) = some ((max hb hc + 1) - ha)
    rw [h4ha]
  · intro j hj
    exact h4mono j (h2mono j (hBmono j hj))

/-- Effect of _set_parent when the old node is the RIGHT child of its
parent n and n's left child cannot structurally equal it (it is Empty or
holds a different key): the parent's right slot is rewritten to the new
node and the parent's height is recomputed from its current children. -/
theorem set_parent_child_right_run (s : St) (x yi n : Nat) (xd yd nd : NodeData)
    (f : Nat) (hl : Int)
    (hx : s.nodes x = some xd) (hy : s.nodes yi = some yd) (hn : s.nodes n = some nd)
    (hxp : xd.parent = some n)
    (hxy : x ≠ yi) (hnx : n ≠ x) (hnyi : n ≠ yi)
    (hf : 0 < f)
    (hhnl : heightOf s nd.left = some hl)
    (hnl : nd.left = .empty ∨ ∃ li ld, nd.left = .inner li ∧ s.nodes li = some ld ∧
           li ≠ x ∧ li ≠ yi ∧ li ≠ n ∧ ld.value ≠ xd.value) :
    ∃ sB, set_parent s (.inner yi) (.inner x) f = some sB ∧
      sB.nodes x = some xd ∧
      sB.nodes yi = some { yd with parent := some n } ∧
      sB.nodes n = some { nd with right := .inner yi, height := max hl yd.height + 1 } ∧
      (∀ j, j ≠ yi → j ≠ n → sB.nodes j = s.nodes j) ∧
      (∀ j, (s.nodes j).isSome → (sB.nodes j).isSome) := by
  obtain ⟨fp, rfl⟩ : ∃ fp, f = fp + 1 := ⟨f - 1, by omega⟩
  have hparx : parentOf s (.inner x) = some (some n) := by
    simp [parentOf, hx, hxp]
  have hA1 : (writeNode s yi { yd with parent := some n }).nodes x = some xd := by
    rw [nodes_writeNode_ne _ _ _ _ hxy]; exact hx
  have hAn : (writeNode s yi { yd with parent := some n }).nodes n = some nd := by
    rw [nodes_writeNode_ne _ _ _ _ hnyi]; exact hn
  have hwp : writeParent s (.inner yi) (some n) =
      some (writeNode s yi { yd with parent := some n }) := by
    simp [writeParent, hy]
  have hpeq : pyEqRef (writeNode s yi { yd with parent := some n }) (fp + 1)
      nd.left (.inner x) = false := by
    rcases hnl with hnl | ⟨li, ld, hli, hld, hlix, hliyi, hlin, hlv⟩
    · rw [hnl]; rfl
    · rw [hli]
      have hlif : (writeNode s yi { yd with parent := some n }).nodes li = some ld := by
        rw [nodes_writeNode_ne _ _ _ _ hliyi]; exact hld
      rw [pyEqRef, if_neg hlix]
      rw [hlif, hA1]
      simp [hlv]
  have hisl : isLeftOf (writeNode s yi { yd with parent := some n }) (.inner x) (fp + 1) =
      some false := by
    simp only [isLeftOf, parentOf, hA1, Option.map_some', hxp, hAn, hpeq]
  have hAhl : heightOf (writeNode s yi { yd with parent := some n }) nd.left = some hl := by
    rw [heightOf_congr s _ nd.left (fun j hj => by
      rcases hnl with hnl | ⟨li, ld, hli, hld, hlix, hliyi, hlin, hlv⟩
      · rw [hnl] at hj; cases hj
      · rw [hli] at hj; cases hj
        exact nodes_writeNode_ne _ _ _ _ hliyi)]
    exact hhnl
  have hAhy : heightOf (writeNode s yi { yd with parent := some n }) (Ref.inner yi) =
      some yd.height := by
    simp [heightOf, nodes_writeNode_self]
  obtain ⟨sB, hrun, hBn, hBval, hBfr, hBmono, hBroot⟩ :=
    setRight_run (writeNode s yi { yd with parent := some n }) n nd (Ref.inner yi)
      hl yd.height hAn
      (fun j hj => by cases hj; exact hnyi.symm)
      hAhl hAhy
      (fun cj hcj => by
        rcases hnl with hnl | ⟨li, ld, hli, hld, hlix, hliyi, hlin, hlv⟩
        · rw [hnl] at hcj; cases hcj
        · rw [hli] at hcj; cases hcj
          exact ⟨fun j hj => by cases hj; exact hliyi, hlin⟩)
    -- note: setRight_run's hld hypothesis is about nd.left
  obtain ⟨yd2, hyd2, hByi⟩ := hBval yi rfl
  have hyd2e : yd2 = { yd with parent := some n } := by
    rw [nodes_writeNode_self] at hyd2
    exact (Option.some.injEq _ _).mp hyd2.symm
  subst hyd2e
  refine ⟨sB, ?_, ?_, ?_, hBn, ?_, ?_⟩
  · simp only [set_parent, hparx]
    rw [hwp]
    show (match isLeftOf (writeNode s yi { yd with parent := some n }) (.inner x) (fp + 1) with
          | none => none
          | some il => if il
              then setLeft (writeNode s yi { yd with parent := some n }) n (.inner yi)
              else setRight (writeNode s yi { yd with parent := some n }) n (.inner yi)) = some sB
    rw [hisl]
    show setRight (writeNode s yi { yd with parent := some n }) n (.inner yi) = some sB
    exact hrun
  · rw [hBfr x hnx.symm (fun k hk => by cases hk; exact hxy)]
    exact hA1
  · exact hByi
  · intro j hjyi hjn
    rw [hBfr j hjn (fun k hk => by cases hk; exact hjyi)]
    exact nodes_writeNode_ne _ _ _ _ hjyi
  · intro j hj
    exact hBmono j (isSome_nodes_writeNode _ _ _ _ hj)

/-- Effect of _set_parent when the old node IS the left child of its
parent n (the dataclass comparison succeeds by identity): the parent's
left slot is rewritten to the new node and the parent's height is
recomputed from its current children. -/
theorem set_parent_child_left_run (s : St) (x yi n : Nat) (xd yd nd : NodeData)
    (f : Nat) (hr : Int)
    (hx : s.nodes x = some xd) (hy : s.nodes yi = some yd) (hn : s.nodes n = some nd)
    (hxp : xd.parent = some n)
    (hxy : x ≠ yi) (hnx : n ≠ x) (hnyi : n ≠ yi)
    (hhnr : heightOf s nd.right = some hr)
    (hnleft : nd.left = .inner x)
    (hnr : ∀ ci, nd.right = .inner ci → ci ≠ yi ∧ ci ≠ n) :
    ∃ sB, set_parent s (.inner yi) (.inner x) f = some sB ∧
      sB.nodes x = some xd ∧
      sB.nodes yi = some { yd with parent := some n } ∧
      sB.nodes n = some { nd with left := .inner yi, height := max yd.height hr + 1 } ∧
      (∀ j, j ≠ yi → j ≠ n → sB.nodes j = s.nodes j) ∧
      (∀ j, (s.nodes j).isSome → (sB.nodes j).isSome) := by
  have hparx : parentOf s (.inner x) = some (some n) := by
    simp [parentOf, hx, hxp]
  have hA1 : (writeNode s yi { yd with parent := some n }).nodes x = some xd := by
    rw [nodes_writeNode_ne _ _ _ _ hxy]; exact hx
  have hAn : (writeNode s yi { yd with parent := some n }).nodes n = some nd := by
    rw [nodes_writeNode_ne _ _ _ _ hnyi]; exact hn
  have hwp : writeParent s (.inner yi) (some n) =
      some (writeNode s yi { yd with parent := some n }) := by
    simp [writeParent, hy]
  have hpeq : pyEqRef (writeNode s yi { yd with parent := some n }) f
      nd.left (.inner x) = true := by
    rw [hnleft]
    cases f with
    | zero => simp [pyEqRef]
    | succ fp => simp [pyEqRef]
  have hisl : isLeftOf (writeNode s yi { yd with parent := some n }) (.inner x) f =
      some true := by
    simp only [isLeftOf, parentOf, hA1, Option.map_some', hxp, hAn, hpeq]
  have hAhr : heightOf (writeNode s yi { yd with parent := some n }) nd.right = some hr := by
    rw [heightOf_congr s _ nd.right (fun j hj =>
      nodes_writeNode_ne _ _ _ _ (hnr j hj).1)]
    exact hhnr
  have hAhy : heightOf (writeNode s yi { yd with parent := some n }) (Ref.inner yi) =
      some yd.height := by
    simp [heightOf, nodes_writeNode_self]
  obtain ⟨sB, hrun, hBn, hBval, hBfr, hBmono, hBroot⟩ :=
    setLeft_run (writeNode s yi { yd with parent := some n }) n nd (Ref.inner yi)
      yd.height hr hAn
      (fun j hj => by cases hj; exact hnyi.symm)
      hAhy hAhr
      (fun cj hcj => ⟨fun j hj => by cases hj; exact (hnr cj hcj).1, (hnr cj hcj).2⟩)
  obtain ⟨yd2, hyd2, hByi⟩ := hBval yi rfl
  have hyd2e : yd2 = { yd with parent := some n } := by
    rw [nodes_writeNode_self] at hyd2
    exact (Option.some.injEq _ _).mp hyd2.symm
  subst hyd2e
  refine ⟨sB, ?_, ?_, ?_, hBn, ?_, ?_⟩
  · simp only [set_parent, hparx]
    rw [hwp]
    show (match isLeftOf (writeNode s yi { yd with parent := some n }) (.inner x) f with
          | none => none
          | some il => if il
              then setLeft (writeNode s yi { yd with parent := some n }) n (.inner yi)
              else setRight (writeNode s yi { yd with parent := some n }) n (.inner yi)) = some sB
    rw [hisl]
    show setLeft (writeNode s yi { yd with parent := some n }) n (.inner yi) = some sB
    exact hrun
  · rw [hBfr x hnx.symm (fun k hk => by cases hk; exact hxy)]
    exact hA1
  · exact hByi
  · intro j hjyi hjn
    rw [hBfr j hjn (fun k hk => by cases hk; exact hjyi)]
    exact nodes_writeNode_ne _ _ _ _ hjyi
  · intro j hj
    exact hBmono j (isSome_nodes_writeNode _ _ _ _ hj)

/-- Effect of _rot_right at the RIGHT child x of a node n (the first half
of the double rotation in the bf = +2 case): besides the usual rewiring,
n's right slot is updated to the new subtree root and n's height is
recomputed (using the new root's pre-rotation height). -/
theorem rot_right_child_run (s : St) (x yi n : Nat) (xd yd nd : NodeData) (f : Nat)
    (ha hb hc hl : Int)
    (hx : s.nodes x = some xd)
    (hxl : xd.left = .inner yi)
    (hy : s.nodes yi = some yd)
    (hn : s.nodes n = some nd)
    (hxp : xd.parent = some n)
    (hxy : x ≠ yi) (hnx : n ≠ x) (hnyi : n ≠ yi)
    (hf : 0 < f)
    (hha : heightOf s yd.left = some ha)
    (hhb : heightOf s yd.right = some hb)
    (hhc : heightOf s xd.right = some hc)
    (hhnl : heightOf s nd.left = some hl)
    (hnl : nd.left = .empty ∨ ∃ li ld, nd.left = .inner li ∧ s.nodes li = some ld ∧
           li ≠ x ∧ li ≠ yi ∧ li ≠ n ∧ ld.value ≠ xd.value)
    (had : ∀ ai, yd.left = .inner ai → ai ≠ x ∧ ai ≠ yi ∧ ai ≠ n ∧
      (∀ bi, yd.right = .inner bi → ai ≠ bi))
    (hbd : ∀ bi, yd.right = .inner bi → bi ≠ x ∧ bi ≠ yi ∧ bi ≠ n)
    (hcd : ∀ ci, xd.right = .inner ci → ci ≠ x ∧ ci ≠ yi ∧ ci ≠ n ∧
      (∀ bi, yd.right = .inner bi → ci ≠ bi)) :
    ∃ s4, rot_right s x f = some (s4, yi) ∧
      s4.nodes n = some { nd with right := .inner yi, height := max hl yd.height + 1 } ∧
      s4.nodes x = some { xd with left := yd.right, height := max hb hc + 1, parent := some yi } ∧
      s4.nodes yi = some { yd with right := Ref.inner x, height := max ha (max hb hc + 1) + 1, parent := some n } ∧
      (∀ j, j ≠ x → j ≠ yi → j ≠ n → (∀ bi, yd.right = .inner bi → j ≠ bi) →
        s4.nodes j = s.nodes j) ∧
      (∀ j, (s.nodes j).isSome → (s4.nodes j).isSome) := by
  obtain ⟨sB, hspr, hBx, hByi, hBn, hBfr, hBmono⟩ :=
    set_parent_child_right_run s x yi n xd yd nd f hl hx hy hn hxp hxy hnx hnyi hf hhnl hnl
  have hshb : heightOf sB yd.right = some hb := by
    rw [heightOf_congr s sB yd.right
      (fun bi hbi => hBfr bi (hbd bi hbi).2.1 (hbd bi hbi).2.2)]
    exact hhb
  have hshc : heightOf sB xd.right = some hc := by
    rw [heightOf_congr s sB xd.right
      (fun ci hci => hBfr ci (hcd ci hci).2.1 (hcd ci hci).2.2.1)]
    exact hhc
  obtain ⟨s2, hrun2, h2x, h2val, h2fr, h2mono, h2root⟩ :=
    setLeft_run sB x xd (yd.right) hb hc hBx
      (fun j hj => (hbd j hj).1)
      hshb hshc
      (fun cj hcj => ⟨fun j hj => (hcd cj hcj).2.2.2 j hj, (hcd cj hcj).1⟩)
  have h2yi : s2.nodes yi = some { yd with parent := some n } := by
    rw [h2fr yi (Ne.symm hxy) (fun k hk => Ne.symm ((hbd k hk).2.1))]
    exact hByi
  have h2n : s2.nodes n = some { nd with right := .inner yi, height := max hl yd.height + 1 } := by
    rw [h2fr n hnx (fun k hk => Ne.symm (hbd k hk).2.2)]
    exact hBn
  have h2hx : heightOf s2 (Ref.inner x) = some (max hb hc + 1) := by
    simp [heightOf, h2x]
  have h2ha : heightOf s2 yd.left = some ha := by
    rw [heightOf_congr sB s2 yd.left
      (fun ai hai => h2fr ai (had ai hai).1 (fun k hk => (had ai hai).2.2.2 k hk)),
      heightOf_congr s sB yd.left
      (fun ai hai => hBfr ai (had ai hai).2.1 (had ai hai).2.2.1)]
    exact hha
  obtain ⟨s4, hrun4, h4yi, h4val, h4fr, h4mono, h4root⟩ :=
    setRight_run s2 yi { yd with parent := some n } (Ref.inner x) ha (max hb hc + 1)
      h2yi
      (fun j hj => by cases hj; exact hxy)
      h2ha
      h2hx
      (fun cj hcj => ⟨fun j hj => by cases hj; exact (had cj hcj).1, (had cj hcj).2.1⟩)
  obtain ⟨xd2, hxd2, h4x⟩ := h4val x rfl
  have hxd2e : xd2 = { xd with left := yd.right, height := max hb hc + 1 } := by
    rw [h2x] at hxd2
    exact (Option.some.injEq _ _).mp hxd2.symm
  subst hxd2e
  have h4n : s4.nodes n = some { nd with right := .inner yi, height := max hl yd.height + 1 } := by
    rw [h4fr n hnyi (fun k hk => by cases hk; exact hnx)]
    exact h2n
  refine ⟨s4, ?_, h4n, h4x, h4yi, ?_, ?_⟩
  · rw [rot_right, hx]
    show (match xd.left with
          | .empty => none
          | .inner yi2 =>
            match s.nodes yi2 with
            | none => none
            | some yd2 =>
              match set_parent s (.inner yi2) (.inner x) f with
              | none => none
              | some s1 =>
                match setLeft s1 x yd2.right with
                | none => none
                | some s2a =>
                  match setRight s2a yi2 (.inner x) with
                  | none => none
                  | some s3 => some (s3, yi2)) = some (s4, yi)
    rw [hxl]
    show (match s.nodes yi with
          | none => none
          | some yd2 =>
            match set_parent s (.inner yi) (.inner x) f with
            | none => none
            | some s1 =>
              match setLeft s1 x yd2.right with
              | none => none
              | some s2a =>
                match setRight s2a yi (.inner x) with
                | none => none
                | some s3 => some (s3, yi)) = some (s4, yi)
    rw [hy]
    show (match set_parent s (.inner yi) (.inner x) f with
          | none => none
          | some s1 =>
            match setLeft s1 x yd.right with
            | none => none
            | some s2a =>
              match setRight s2a yi (.inner x) with
              | none => none
              | some s3 => some (s3, yi)) = some (s4, yi)
    rw [hspr]
    show (match setLeft sB x yd.right with
          | none => none
          | some s2a =>
            match setRight s2a yi (.inner x) with
            | none => none
            | some s3 => some (s3, yi)) = some (s4, yi)
    rw [hrun2]
    show (match setRight s2 yi (.inner x) with
          | none => none
          | some s3 => some (s3, yi)) = some (s4, yi)
    rw [hrun4]
  · intro j hjx hjyi hjn hjb
    rw [h4fr j hjyi (fun k hk => by cases hk; exact hjx),
        h2fr j hjx (fun k hk => hjb k hk),
        hBfr j hjyi hjn]
  · intro j hj
    exact h4mono j (h2mono j (hBmono j hj))

/-- Effect of _rot_left at the LEFT child x of a node n (the first half of
the double rotation in the bf = -2 case), mirror of rot_right_child_run. -/
theorem rot_left_child_run (s : St) (x yi n : Nat) (xd yd nd : NodeData) (f : Nat)
    (hl hb ha hr : Int)
    (hx : s.nodes x = some xd)
    (hxr : xd.right = .inner yi)
    (hy : s.nodes yi = some yd)
    (hn : s.nodes n = some nd)
    (hxp : xd.parent = some n)
    (hxy : x ≠ yi) (hnx : n ≠ x) (hnyi : n ≠ yi)
    (hhl : heightOf s xd.left = some hl)
    (hhb : heightOf s yd.left = some hb)
    (hha : heightOf s yd.right = some ha)
    (hhnr : heightOf s nd.right = some hr)
    (hnleft : nd.left = .inner x)
    (hnr : ∀ ci, nd.right = .inner ci → ci ≠ x ∧ ci ≠ yi ∧ ci ≠ n ∧
      (∀ bi, yd.left = .inner bi → ci ≠ bi))
    (hld : ∀ li, xd.left = .inner li → li ≠ x ∧ li ≠ yi ∧ li ≠ n ∧
      (∀ bi, yd.left = .inner bi → li ≠ bi))
    (hbd : ∀ bi, yd.left = .inner bi → bi ≠ x ∧ bi ≠ yi ∧ bi ≠ n)
    (had : ∀ ai, yd.right = .inner ai → ai ≠ x ∧ ai ≠ yi ∧ ai ≠ n ∧
      (∀ bi, yd.left = .inner bi → ai ≠ bi)) :
    ∃ s4, rot_left s x f = some (s4, yi) ∧
      s4.nodes n = some { nd with left := .inner yi, height := max yd.height hr + 1 } ∧
      s4.nodes x = some { xd with right := yd.left, height := max hl hb + 1, parent := some yi } ∧
      s4.nodes yi = some { yd with left := Ref.inner x, height := max (max hl hb + 1) ha + 1, parent := some n } ∧
      (∀ j, j ≠ x → j ≠ yi → j ≠ n → (∀ bi, yd.left = .inner bi → j ≠ bi) →
        s4.nodes j = s.nodes j) ∧
      (∀ j, (s.nodes j).isSome → (s4.nodes j).isSome) := by
  obtain ⟨sB, hspr, hBx, hByi, hBn, hBfr, hBmono⟩ :=
    set_parent_child_left_run s x yi n xd yd nd f hr hx hy hn hxp hxy hnx hnyi hhnr hnleft
      (fun ci hci => ⟨(hnr ci hci).2.1, (hnr ci hci).2.2.1⟩)
  have hshl : heightOf sB xd.left = some hl := by
    rw [heightOf_congr s sB xd.left
      (fun li hli => hBfr li (hld li hli).2.1 (hld li hli).2.2.1)]
    exact hhl
  have hshb : heightOf sB yd.left = some hb := by
    rw [heightOf_congr s sB yd.left
      (fun bi hbi => hBfr bi (hbd bi hbi).2.1 (hbd bi hbi).2.2)]
    exact hhb
  obtain ⟨s2, hrun2, h2x, h2val, h2fr, h2mono, h2root⟩ :=
    setRight_run sB x xd (yd.left) hl hb hBx
      (fun j hj => (hbd j hj).1)
      hshl hshb
      (fun cj hcj => ⟨fun j hj => (hld cj hcj).2.2.2 j hj, (hld cj hcj).1⟩)
  have h2yi : s2.nodes yi = some { yd with parent := some n } := by
    rw [h2fr yi (Ne.symm hxy) (fun k hk => Ne.symm ((hbd k hk).2.1))]
    exact hByi
  have h2n : s2.nodes n = some { nd with left := .inner yi, height := max yd.height hr + 1 } := by
    rw [h2fr n hnx (fun k hk => Ne.symm (hbd k hk).2.2)]
    exact hBn
  have h2hx : heightOf s2 (Ref.inner x) = some (max hl hb + 1) := by
    simp [heightOf, h2x]
  have h2ha : heightOf s2 yd.right = some ha := by
    rw [heightOf_congr sB s2 yd.right
      (fun ai hai => h2fr ai (had ai hai).1 (fun k hk => (had ai hai).2.2.2 k hk)),
      heightOf_congr s sB yd.right
      (fun ai hai => hBfr ai (had ai hai).2.1 (had ai hai).2.2.1)]
    exact hha
  obtain ⟨s4, hrun4, h4yi, h4val, h4fr, h4mono, h4root⟩ :=
    setLeft_run s2 yi { yd with parent := some n } (Ref.inner x) (max hl hb + 1) ha
      h2yi
      (fun j hj => by cases hj; exact hxy)
      h2hx
      h2ha
      (fun cj hcj => ⟨fun j hj => by cases hj; exact (had cj hcj).1, (had cj hcj).2.1⟩)
  obtain ⟨xd2, hxd2, h4x⟩ := h4val x rfl
  have hxd2e : xd2 = { xd with right := yd.left, height := max hl hb + 1 } := by
    rw [h2x] at hxd2
    exact (Option.some.injEq _ _).mp hxd2.symm
  subst hxd2e
  have h4n : s4.nodes n = some { nd with left := .inner yi, height := max yd.height hr + 1 } := by
    rw [h4fr n hnyi (fun k hk => by cases hk; exact hnx)]
    exact h2n
  refine ⟨s4, ?_, h4n, h4x, h4yi, ?_, ?_⟩
  · rw [rot_left, hx]
    show (match xd.right with
          | .empty => none
          | .inner yi2 =>
            match s.nodes yi2 with
            | none => none
            | some yd2 =>
              match set_parent s (.inner yi2) (.inner x) f with
              | none => none
              | some s1 =>
                match setRight s1 x yd2.left with
                | none => none
                | some s2a =>
                  match setLeft s2a yi2 (.inner x) with
                  | none => none
                  | some s3 => some (s3, yi2)) = some (s4, yi)
    rw [hxr]
    show (match s.nodes yi with
          | none => none
          | some yd2 =>
            match set_parent s (.inner yi) (.inner x) f with
            | none => none
            | some s1 =>
              match setRight s1 x yd2.left with
              | none => none
              | some s2a =>
                match setLeft s2a yi (.inner x) with
                | none => none
                | some s3 => some (s3, yi)) = some (s4, yi)
    rw [hy]
    show (match set_parent s (.inner yi) (.inner x) f with
          | none => none
          | some s1 =>
            match setRight s1 x yd.left with
            | none => none
            | some s2a =>
              match setLeft s2a yi (.inner x) with
              | none => none
              | some s3 => some (s3, yi)) = some (s4, yi)
    rw [hspr]
    show (match setRight sB x yd.left with
          | none => none
          | some s2a =>
            match setLeft s2a yi (.inner x) with
            | none => none
            | some s3 => some (s3, yi)) = some (s4, yi)
    rw [hrun2]
    show (match setLeft s2 yi (.inner x) with
          | none => none
          | some s3 => some (s3, yi)) = some (s4, yi)
    rw [hrun4]
  · intro j hjx hjyi hjn hjb
    rw [h4fr j hjyi (fun k hk => by cases hk; exact hjx),
        h2fr j hjx (fun k hk => hjb k hk),
        hBfr j hjyi hjn]
  · intro j hj
    exact h4mono j (h2mono j (hBmono j hj))

/-- The claimed height of a well-formed subtree is its cached height. -/
theorem SubWF_heightOf (s : St) (r : Ref) (h : Int) (ids : List Nat)
    (lo hi : Int) (par : Option Nat) (hw : SubWF s r h ids lo hi par) :
    heightOf s r = some h := by
  cases hw
  case empty => rfl
  case node =>
    rename_i h1 h2 hrec hL hR hb1 hb2 hnd
    simp only [heightOf]
    rw [hnd]
    rfl

/-- Well-formed subtrees have nonnegative height. -/
theorem SubWF_nonneg (s : St) (r : Ref) (h : Int) (ids : List Nat)
    (lo hi : Int) (par : Option Nat) (hw : SubWF s r h ids lo hi par) :
    0 ≤ h := by
  induction hw
  case empty => omega
  case node hl hr _ _ _ _ _ _ _ _ _ _ _ _ _ _ =>
    omega

/-- The root id of an inner well-formed subtree is in its id list. -/
theorem SubWF_mem (s : St) (i : Nat) (h : Int) (ids : List Nat)
    (lo hi : Int) (par : Option Nat) (hw : SubWF s (.inner i) h ids lo hi par) :
    i ∈ ids := by
  cases hw
  case node => exact List.mem_cons_self _ _

/-- Unfolding of _balance_node once the record and cached bf are known. -/
theorem balance_node_unfold (s : St) (n : Nat) (f : Nat) (nd : NodeData) (bf0 : Int)
    (hn : s.nodes n = some nd) (hbf0 : bfOf s (.inner n) = some bf0) :
    balance_node s n f =
      (match (if bf0 = 2 then
          match bfOf s nd.right with
          | none => none
          | some rbf =>
            if 0 ≤ rbf then rot_left s n f
            else if rbf = -1 then
              match nd.right with
              | .empty => none
              | .inner ri =>
                match rot_right s ri f with
                | none => none
                | some (s1, _) => rot_left s1 n f
            else some (s, n)
        else if bf0 = -2 then
          match bfOf s nd.left with
          | none => none
          | some lbf =>
            if lbf ≤ 0 then rot_right s n f
            else if lbf = 1 then
              match nd.left with
              | .empty => none
              | .inner li =>
                match rot_left s li f with
                | none => none
                | some (s1, _) => rot_right s1 n f
            else some (s, n)
        else some (s, n) : Option (St × Nat)) with
       | none => none
       | some (s2, m) =>
         match bfOf s2 (.inner m) with
         | none => none
         | some bf1 => if -2 < bf1 ∧ bf1 < 2 then some (s2, m) else none) := by
  rw [balance_node, hn]
  show (match bfOf s (.inner n) with
        | none => none
        | some bf0 => _) = _
  rw [hbf0]

/-- The root record of an inner well-formed subtree, with its key bounds. -/
theorem SubWF_root (s : St) (i : Nat) (h : Int) (ids : List Nat)
    (lo hi : Int) (par : Option Nat) (hw : SubWF s (.inner i) h ids lo hi par) :
    ∃ d, s.nodes i = some d ∧ lo < d.value ∧ d.value < hi := by
  cases hw
  case node =>
    rename_i h1 h2 h3 hlov hsubL hvhi hsubR hrec
    exact ⟨_, hrec, hlov, hvhi⟩

/-- C6: _balance_node restores a strict bound on the balance factor.  For
every Inner node n whose cached heights are consistent and whose two
subtrees are internally AVL-balanced search trees, with n's own balance
factor within [-2, 2] (and n's surroundings well separated), the call
returns a subtree root whose balance factor lies strictly between -2 and
+2 — in particular the assertion closing _balance_node never fails. -/
theorem c6_balance_node_postcondition (s : St) (n : Nat) (f : Nat)
    (vn hl hr : Int) (lr rr : Ref) (pn : Option Nat) (lids rids : List Nat)
    (lo hi : Int)
    (hf : 0 < f)
    (hn : s.nodes n = some ⟨vn, lr, rr, max hl hr + 1, pn⟩)
    (hlo : lo < vn) (hhi : vn < hi)
    (hL : SubWF s lr hl lids lo vn (some n))
    (hR : SubWF s rr hr rids vn hi (some n))
    (hnodup : (n :: (lids ++ rids)).Nodup)
    (hbfa : -2 ≤ hr - hl) (hbfb : hr - hl ≤ 2)
    (hpar : pn = none ∨ ∃ q qd, pn = some q ∧ s.nodes q = some qd ∧
            q ∉ n :: (lids ++ rids) ∧
            (heightOf s qd.left).isSome ∧ (heightOf s qd.right).isSome) :
    ∃ s2 m bf2, balance_node s n f = some (s2, m) ∧
      bfOf s2 (.inner m) = some bf2 ∧ -2 < bf2 ∧ bf2 < 2 := by
  have hHl : heightOf s lr = some hl := SubWF_heightOf _ _ _ _ _ _ _ hL
  have hHr : heightOf s rr = some hr := SubWF_heightOf _ _ _ _ _ _ _ hR
  have hl0 : 0 ≤ hl := SubWF_nonneg _ _ _ _ _ _ _ hL
  have hr0 : 0 ≤ hr := SubWF_nonneg _ _ _ _ _ _ _ hR
  have hbf0 : bfOf s (.inner n) = some (hr - hl) := by
    rw [bfOf, hn]
    show (match heightOf s rr, heightOf s lr with
          | some a, some b => some (a - b)
          | _, _ => none) = some (hr - hl)
    rw [hHr, hHl]
  have hunf := balance_node_unfold s n f ⟨vn, lr, rr, max hl hr + 1, pn⟩ (hr - hl) hn hbf0
  by_cases h2 : hr - hl = 2
  · -- right-heavy by two
    cases hR
    · omega
    · rename_i yi vy yl yr hb hc ylids yrids hyb1 hyb2 hynodup hylov hYL hyvhi hYR hyrec
      have hHb : heightOf s yl = some hb := SubWF_heightOf _ _ _ _ _ _ _ hYL
      have hHc : heightOf s yr = some hc := SubWF_heightOf _ _ _ _ _ _ _ hYR
      have hb0 : 0 ≤ hb := SubWF_nonneg _ _ _ _ _ _ _ hYL
      have hc0 : 0 ≤ hc := SubWF_nonneg _ _ _ _ _ _ _ hYR
      have hrbf : bfOf s (.inner yi) = some (hc - hb) := by
        rw [bfOf, hyrec]
        show (match heightOf s yr, heightOf s yl with
              | some a, some b => some (a - b)
              | _, _ => none) = some (hc - hb)
        rw [hHc, hHb]
      have hnmem : n ∉ lids ++ (yi :: (ylids ++ yrids)) := (List.nodup_cons.mp hnodup).1
      have htail : (lids ++ (yi :: (ylids ++ yrids))).Nodup := (List.nodup_cons.mp hnodup).2
      have hsplit := List.nodup_append.mp htail
      have hdisj : lids.Disjoint (yi :: (ylids ++ yrids)) := hsplit.2.2
      have hyn : (yi :: (ylids ++ yrids)).Nodup := hsplit.2.1
      have hyimem : yi ∉ ylids ++ yrids := (List.nodup_cons.mp hyn).1
      have hysplit := List.nodup_append.mp (List.nodup_cons.mp hyn).2
      have hdisjY : ylids.Disjoint yrids := hysplit.2.2
      have hmemL : ∀ li, lr = .inner li → li ∈ lids := fun li hli =>
        SubWF_mem _ _ _ _ _ _ _ (hli ▸ hL)
      have hmemB : ∀ bi, yl = .inner bi → bi ∈ ylids := fun bi hbi =>
        SubWF_mem _ _ _ _ _ _ _ (hbi ▸ hYL)
      have hmemC : ∀ ci, yr = .inner ci → ci ∈ yrids := fun ci hci =>
        SubWF_mem _ _ _ _ _ _ _ (hci ▸ hYR)
      have hyitail : yi ∈ lids ++ (yi :: (ylids ++ yrids)) :=
        List.mem_append_right _ (List.mem_cons_self _ _)
      have hbitail : ∀ bi, bi ∈ ylids → bi ∈ lids ++ (yi :: (ylids ++ yrids)) :=
        fun bi hbi => List.mem_append_right _
          (List.mem_cons_of_mem _ (List.mem_append_left _ hbi))
      have hcitail : ∀ ci, ci ∈ yrids → ci ∈ lids ++ (yi :: (ylids ++ yrids)) :=
        fun ci hci => List.mem_append_right _
          (List.mem_cons_of_mem _ (List.mem_append_right _ hci))
      have hnyi : n ≠ yi := fun he => hnmem (he ▸ hyitail)
      have hqfact : ∀ j, j ∈ n :: (lids ++ (yi :: (ylids ++ yrids))) →
          ∀ q1, pn = some q1 → j ≠ q1 := by
        rcases hpar with hpn | ⟨q, qd, hq, hqd, hqmem, hql, hqr⟩
        · intro j hj q1 hq1; rw [hpn] at hq1; cases hq1
        · intro j hj q1 hq1
          rw [hq] at hq1
          injection hq1 with he
          subst he
          exact fun he2 => hqmem (he2 ▸ hj)
      have hpararg : pn = none ∨ ∃ q qd, pn = some q ∧ s.nodes q = some qd ∧
          q ≠ n ∧ q ≠ yi ∧
          (heightOf s qd.left).isSome ∧ (heightOf s qd.right).isSome := by
        rcases hpar with hpn | ⟨q, qd, hq, hqd, hqmem, hql, hqr⟩
        · exact Or.inl hpn
        · exact Or.inr ⟨q, qd, hq, hqd,
            Ne.symm (hqfact n (List.mem_cons_self _ _) q hq),
            Ne.symm (hqfact yi (List.mem_cons_of_mem _ hyitail) q hq), hql, hqr⟩
      have hld : ∀ li, lr = .inner li → li ≠ n ∧ li ≠ yi ∧
          (∀ bi, yl = .inner bi → li ≠ bi) ∧ (∀ q1, pn = some q1 → li ≠ q1) := by
        intro li hli
        have hmem := hmemL li hli
        refine ⟨fun he => hnmem (he ▸ List.mem_append_left _ hmem),
          fun he => hdisj hmem (he ▸ List.mem_cons_self _ _),
          fun bi hbi he => hdisj hmem (he ▸ List.mem_cons_of_mem _
            (List.mem_append_left _ (hmemB bi hbi))),
          fun q1 hq1 => hqfact li (List.mem_cons_of_mem _
            (List.mem_append_left _ hmem)) q1 hq1⟩
      have hbd : ∀ bi, yl = .inner bi → bi ≠ n ∧ bi ≠ yi ∧
          (∀ q1, pn = some q1 → bi ≠ q1) := by
        intro bi hbi
        have hmem := hmemB bi hbi
        refine ⟨fun he => hnmem (he ▸ hbitail bi hmem),
          fun he => hyimem (he ▸ List.mem_append_left _ hmem),
          fun q1 hq1 => hqfact bi (List.mem_cons_of_mem _ (hbitail bi hmem)) q1 hq1⟩
      have hcd : ∀ ci, yr = .inner ci → ci ≠ n ∧ ci ≠ yi ∧
          (∀ bi, yl = .inner bi → ci ≠ bi) ∧ (∀ q1, pn = some q1 → ci ≠ q1) := by
        intro ci hci
        have hmem := hmemC ci hci
        refine ⟨fun he => hnmem (he ▸ hcitail ci hmem),
          fun he => hyimem (he ▸ List.mem_append_right _ hmem),
          fun bi hbi he => hdisjY (hmemB bi hbi) (he ▸ hmem),
          fun q1 hq1 => hqfact ci (List.mem_cons_of_mem _ (hcitail ci hmem)) q1 hq1⟩
      by_cases hA : 0 ≤ hc - hb
      · -- single left rotation
        obtain ⟨s4, hrot, hx4, hy4, hbf4, hfr4, hmono4⟩ :=
          rot_left_run s n yi ⟨vn, lr, .inner yi, max hl (max hb hc + 1) + 1, pn⟩
            ⟨vy, yl, yr, max hb hc + 1, some n⟩ f hl hb hc
            hn rfl hyrec hnyi hHl hHb hHc
            (fun li hli => ⟨(hld li hli).1, (hld li hli).2.1, (hld li hli).2.2.1,
              (hld li hli).2.2.2⟩)
            (fun bi hbi => ⟨(hbd bi hbi).1, (hbd bi hbi).2.1, (hbd bi hbi).2.2⟩)
            (fun ci hci => ⟨(hcd ci hci).1, (hcd ci hci).2.1, (hcd ci hci).2.2.1,
              (hcd ci hci).2.2.2⟩)
            hpararg
        have hmaxbc : max hb hc = hc := max_eq_right (by omega)
        rw [hmaxbc] at h2
        have hbnd : -2 < hc - (max hl hb + 1) ∧ hc - (max hl hb + 1) < 2 := by
          rcases le_total hl hb with hm | hm
          · rw [max_eq_right hm]; omega
          · rw [max_eq_left hm]; omega
        have hres : balance_node s n f = some (s4, yi) := by
          rw [hunf, if_pos (show (max hb hc + 1) - hl = 2 by rw [hmaxbc]; omega)]
          simp only [hrbf]
          rw [if_pos hA]
          simp only [hrot, hbf4]
          rw [if_pos hbnd]
        exact ⟨s4, yi, hc - (max hl hb + 1), hres, hbf4, hbnd.1, hbnd.2⟩
      · -- double rotation: right child is left-heavy
        have hcm1 : hc - hb = -1 := by omega
        cases hYL
        · omega
        · rename_i zi vz zl zr hzl hzr zlids zrids hzb1 hzb2 hznodup hzlov hZL hzvhi hZR hzrec
          have hHzl : heightOf s zl = some hzl := SubWF_heightOf _ _ _ _ _ _ _ hZL
          have hHzr : heightOf s zr = some hzr := SubWF_heightOf _ _ _ _ _ _ _ hZR
          have hzl0 : 0 ≤ hzl := SubWF_nonneg _ _ _ _ _ _ _ hZL
          have hzr0 : 0 ≤ hzr := SubWF_nonneg _ _ _ _ _ _ _ hZR
          have hmemZL : ∀ ai, zl = Ref.inner ai → ai ∈ zlids := fun ai hai =>
            SubWF_mem _ _ _ _ _ _ _ (hai ▸ hZL)
          have hmemZR : ∀ bi, zr = Ref.inner bi → bi ∈ zrids := fun bi hbi =>
            SubWF_mem _ _ _ _ _ _ _ (hbi ▸ hZR)
          have hziyl : zi ∈ zi :: (zlids ++ zrids) := List.mem_cons_self _ _
          have hzgrp : ∀ j, j ∈ zi :: (zlids ++ zrids) →
              j ∈ lids ++ (yi :: ((zi :: (zlids ++ zrids)) ++ yrids)) :=
            fun j hj => List.mem_append_right _
              (List.mem_cons_of_mem _ (List.mem_append_left _ hj))
          have hyizi : yi ≠ zi := by
            intro he
            subst he
            exact hyimem (List.mem_append_left _ hziyl)
          have hnzi : n ≠ zi := by
            intro he
            subst he
            exact hnmem (hzgrp _ hziyl)
          have hziYn : (zi :: (zlids ++ zrids)).Nodup := hysplit.1
          have hzimem : zi ∉ zlids ++ zrids := (List.nodup_cons.mp hziYn).1
          have hzzsplit := List.nodup_append.mp (List.nodup_cons.mp hziYn).2
          have hdisjZ : zlids.Disjoint zrids := hzzsplit.2.2
          have hnl2 : lr = Ref.empty ∨ ∃ li ld, lr = Ref.inner li ∧ s.nodes li = some ld ∧
              li ≠ yi ∧ li ≠ zi ∧ li ≠ n ∧ ld.value ≠ vy := by
            rcases hlr : lr with _ | li
            · exact Or.inl rfl
            · obtain ⟨ld, hldrec, hldlo, hldhi⟩ := SubWF_root _ _ _ _ _ _ _ (hlr ▸ hL)
              have hmem := hmemL li hlr
              refine Or.inr ⟨li, ld, rfl, hldrec, (hld li hlr).2.1, ?_, (hld li hlr).1, by omega⟩
              intro he
              exact hdisj (he ▸ hmem) (List.mem_cons_of_mem _ (List.mem_append_left _ hziyl))
          have hadz : ∀ ai, zl = Ref.inner ai → ai ≠ yi ∧ ai ≠ zi ∧ ai ≠ n ∧
              (∀ bi, zr = Ref.inner bi → ai ≠ bi) := by
            intro ai hai
            have hmem := hmemZL ai hai
            have hgrp : ai ∈ zi :: (zlids ++ zrids) :=
              List.mem_cons_of_mem _ (List.mem_append_left _ hmem)
            refine ⟨?_, ?_, ?_, ?_⟩
            · intro he; exact hyimem (he ▸ List.mem_append_left _ hgrp)
            · intro he; exact hzimem (he ▸ List.mem_append_left _ hmem)
            · intro he; exact hnmem (he ▸ hzgrp ai hgrp)
            · intro bi hbi he
              exact hdisjZ (he ▸ hmem) (hmemZR bi hbi)
          have hbdz : ∀ bi, zr = Ref.inner bi → bi ≠ yi ∧ bi ≠ zi ∧ bi ≠ n := by
            intro bi hbi
            have hmem := hmemZR bi hbi
            have hgrp : bi ∈ zi :: (zlids ++ zrids) :=
              List.mem_cons_of_mem _ (List.mem_append_right _ hmem)
            refine ⟨?_, ?_, ?_⟩
            · intro he; exact hyimem (he ▸ List.mem_append_left _ hgrp)
            · intro he; exact hzimem (he ▸ List.mem_append_right _ hmem)
            · intro he; exact hnmem (he ▸ hzgrp bi hgrp)
          have hcdz : ∀ ci, yr = Ref.inner ci → ci ≠ yi ∧ ci ≠ zi ∧ ci ≠ n ∧
              (∀ bi, zr = Ref.inner bi → ci ≠ bi) := by
            intro ci hci
            have hmem := hmemC ci hci
            refine ⟨?_, ?_, ?_, ?_⟩
            · intro he; exact hyimem (he ▸ List.mem_append_right _ hmem)
            · intro he; exact hdisjY hziyl (he ▸ hmem)
            · intro he; exact hnmem (he ▸ hcitail ci hmem)
            · intro bi hbi he
              exact hdisjY (List.mem_cons_of_mem _ (List.mem_append_right _ (hmemZR bi hbi)))
                (he ▸ hmem)
          obtain ⟨sp, hrotA, hspn, hspyi, hspzi, hfrA, hmonoA⟩ :=
            rot_right_child_run s yi zi n
              ⟨vy, .inner zi, yr, max (max hzl hzr + 1) hc + 1, some n⟩
              ⟨vz, zl, zr, max hzl hzr + 1, some yi⟩
              ⟨vn, lr, .inner yi, max hl (max (max hzl hzr + 1) hc + 1) + 1, pn⟩
              f hzl hzr hc hl
              hyrec rfl hzrec hn rfl hyizi (Ne.symm hnyi).symm hnzi hf
              hHzl hHzr hHc hHl
              hnl2
              hadz hbdz hcdz
          have hsphl : heightOf sp lr = some hl := by
            rw [heightOf_congr s sp lr (fun li hli => hfrA li (hld li hli).2.1
              (fun he => hdisj (he ▸ hmemL li hli)
                (List.mem_cons_of_mem _ (List.mem_append_left _ hziyl)))
              (hld li hli).1
              (fun bi hbi he => hdisj (he ▸ hmemL li hli)
                (List.mem_cons_of_mem _ (List.mem_append_left _
                  (List.mem_cons_of_mem _ (List.mem_append_right _ (hmemZR bi hbi)))))))]
            exact hHl
          have hsphzl : heightOf sp zl = some hzl := by
            rw [heightOf_congr s sp zl (fun ai hai => hfrA ai (hadz ai hai).1
              (hadz ai hai).2.1 (hadz ai hai).2.2.1 (hadz ai hai).2.2.2)]
            exact hHzl
          have hsphyi : heightOf sp (Ref.inner yi) = some (max hzr hc + 1) := by
            simp [heightOf, hspyi]
          have hld2 : ∀ li, lr = Ref.inner li → li ≠ n ∧ li ≠ zi ∧
              (∀ bi, zl = Ref.inner bi → li ≠ bi) ∧ (∀ q1, pn = some q1 → li ≠ q1) := by
            intro li hli
            have hmem := hmemL li hli
            refine ⟨(hld li hli).1, ?_, ?_, (hld li hli).2.2.2⟩
            · intro he
              exact hdisj (he ▸ hmem) (List.mem_cons_of_mem _ (List.mem_append_left _ hziyl))
            · intro bi hbi he
              exact hdisj (he ▸ hmem) (List.mem_cons_of_mem _ (List.mem_append_left _
                (List.mem_cons_of_mem _ (List.mem_append_left _ (hmemZL bi hbi)))))
          have hbd2 : ∀ ai, zl = Ref.inner ai → ai ≠ n ∧ ai ≠ zi ∧
              (∀ q1, pn = some q1 → ai ≠ q1) := by
            intro ai hai
            refine ⟨(hadz ai hai).2.2.1, (hadz ai hai).2.1, ?_⟩
            intro q1 hq1
            exact hqfact ai (List.mem_cons_of_mem _ (hzgrp ai
              (List.mem_cons_of_mem _ (List.mem_append_left _ (hmemZL ai hai))))) q1 hq1
          have hcd2 : ∀ ci, Ref.inner yi = Ref.inner ci → ci ≠ n ∧ ci ≠ zi ∧
              (∀ bi, zl = Ref.inner bi → ci ≠ bi) ∧ (∀ q1, pn = some q1 → ci ≠ q1) := by
            intro ci hci
            cases hci
            refine ⟨Ne.symm hnyi, hyizi, ?_, ?_⟩
            · intro bi hbi he
              exact hyimem (he ▸ List.mem_append_left _
                (List.mem_cons_of_mem _ (List.mem_append_left _ (hmemZL bi hbi))))
            · intro q1 hq1
              exact hqfact yi (List.mem_cons_of_mem _ hyitail) q1 hq1
          have hpar2 : pn = none ∨ ∃ q qd, pn = some q ∧ sp.nodes q = some qd ∧
              q ≠ n ∧ q ≠ zi ∧
              (heightOf sp qd.left).isSome ∧ (heightOf sp qd.right).isSome := by
            rcases hpar with hpn | ⟨q, qd, hq, hqd, hqmem, hql, hqr⟩
            · exact Or.inl hpn
            · refine Or.inr ⟨q, qd, hq, ?_, Ne.symm (hqfact n (List.mem_cons_self _ _) q hq),
                Ne.symm (hqfact zi (List.mem_cons_of_mem _ (hzgrp zi hziyl)) q hq),
                isSome_heightOf_mono s sp hmonoA _ hql,
                isSome_heightOf_mono s sp hmonoA _ hqr⟩
              rw [hfrA q (Ne.symm (hqfact yi (List.mem_cons_of_mem _ hyitail) q hq))
                (Ne.symm (hqfact zi (List.mem_cons_of_mem _ (hzgrp zi hziyl)) q hq))
                (Ne.symm (hqfact n (List.mem_cons_self _ _) q hq))
                (fun bi hbi => Ne.symm (hqfact bi (List.mem_cons_of_mem _ (hzgrp bi
                  (List.mem_cons_of_mem _ (List.mem_append_right _ (hmemZR bi hbi))))) q hq))]
              exact hqd
          obtain ⟨s4, hrotB, hx4, hy4, hbf4, hfr4, hmono4⟩ :=
            rot_left_run sp n zi
              ⟨vn, lr, .inner zi, max hl (max hzl hzr + 1) + 1, pn⟩
              ⟨vz, zl, .inner yi, max hzl (max hzr hc + 1) + 1, some n⟩
              f hl hzl (max hzr hc + 1)
              hspn rfl hspzi hnzi hsphl hsphzl hsphyi
              hld2 hbd2 hcd2 hpar2
          have hM1 : hzl ≤ max hzl hzr := le_max_left _ _
          have hM2 : hzr ≤ max hzl hzr := le_max_right _ _
          have hmaxbc2 : max (max hzl hzr + 1) hc = max hzl hzr + 1 :=
            max_eq_left (by omega)
          rw [hmaxbc2] at h2
          have e1 : max hzr hc = hc := max_eq_right (by omega)
          have e2 : max hl hzl = hl := max_eq_left (by omega)
          have hbnd : -2 < (max hzr hc + 1) - (max hl hzl + 1) ∧
              (max hzr hc + 1) - (max hl hzl + 1) < 2 := by
            rw [e1, e2]; omega
          have hres : balance_node s n f = some (s4, zi) := by
            rw [hunf, if_pos (show max (max hzl hzr + 1) hc + 1 - hl = 2 by
              rw [hmaxbc2]; omega)]
            simp only [hrbf]
            rw [if_neg hA, if_pos hcm1]
            simp only [hrotA, hrotB, hbf4]
            rw [if_pos hbnd]
          exact ⟨s4, zi, (max hzr hc + 1) - (max hl hzl + 1), hres, hbf4, hbnd.1, hbnd.2⟩
  · by_cases hm2 : hr - hl = -2
    · -- left-heavy by two
      cases hL
      · omega
      · rename_i yi vy yl yr hb hc ylids yrids hyb1 hyb2 hynodup hylov hYL hyvhi hYR hyrec
        have hHb : heightOf s yl = some hb := SubWF_heightOf _ _ _ _ _ _ _ hYL
        have hHc : heightOf s yr = some hc := SubWF_heightOf _ _ _ _ _ _ _ hYR
        have hb0 : 0 ≤ hb := SubWF_nonneg _ _ _ _ _ _ _ hYL
        have hc0 : 0 ≤ hc := SubWF_nonneg _ _ _ _ _ _ _ hYR
        have hlbf : bfOf s (.inner yi) = some (hc - hb) := by
          rw [bfOf, hyrec]
          show (match heightOf s yr, heightOf s yl with
                | some a, some b => some (a - b)
                | _, _ => none) = some (hc - hb)
          rw [hHc, hHb]
        have hnmem : n ∉ (yi :: (ylids ++ yrids)) ++ rids := (List.nodup_cons.mp hnodup).1
        have htail : ((yi :: (ylids ++ yrids)) ++ rids).Nodup := (List.nodup_cons.mp hnodup).2
        have hsplit := List.nodup_append.mp htail
        have hdisj : (yi :: (ylids ++ yrids)).Disjoint rids := hsplit.2.2
        have hyn : (yi :: (ylids ++ yrids)).Nodup := hsplit.1
        have hyimem : yi ∉ ylids ++ yrids := (List.nodup_cons.mp hyn).1
        have hysplit := List.nodup_append.mp (List.nodup_cons.mp hyn).2
        have hdisjY : ylids.Disjoint yrids := hysplit.2.2
        have hmemR : ∀ ri, rr = .inner ri → ri ∈ rids := fun ri hri =>
          SubWF_mem _ _ _ _ _ _ _ (hri ▸ hR)
        have hmemB : ∀ bi, yl = .inner bi → bi ∈ ylids := fun bi hbi =>
          SubWF_mem _ _ _ _ _ _ _ (hbi ▸ hYL)
        have hmemC : ∀ ci, yr = .inner ci → ci ∈ yrids := fun ci hci =>
          SubWF_mem _ _ _ _ _ _ _ (hci ▸ hYR)
        have hyitail : yi ∈ (yi :: (ylids ++ yrids)) ++ rids :=
          List.mem_append_left _ (List.mem_cons_self _ _)
        have hbitail : ∀ bi, bi ∈ ylids → bi ∈ (yi :: (ylids ++ yrids)) ++ rids :=
          fun bi hbi => List.mem_append_left _
            (List.mem_cons_of_mem _ (List.mem_append_left _ hbi))
        have hcitail : ∀ ci, ci ∈ yrids → ci ∈ (yi :: (ylids ++ yrids)) ++ rids :=
          fun ci hci => List.mem_append_left _
            (List.mem_cons_of_mem _ (List.mem_append_right _ hci))
        have hritail : ∀ ri, ri ∈ rids → ri ∈ (yi :: (ylids ++ yrids)) ++ rids :=
          fun ri hri => List.mem_append_right _ hri
        have hnyi : n ≠ yi := fun he => hnmem (he ▸ hyitail)
        have hqfact : ∀ j, j ∈ n :: ((yi :: (ylids ++ yrids)) ++ rids) →
            ∀ q1, pn = some q1 → j ≠ q1 := by
          rcases hpar with hpn | ⟨q, qd, hq, hqd, hqmem, hql, hqr⟩
          · intro j hj q1 hq1; rw [hpn] at hq1; cases hq1
          · intro j hj q1 hq1
            rw [hq] at hq1
            injection hq1 with he
            subst he
            exact fun he2 => hqmem (he2 ▸ hj)
        have hpararg : pn = none ∨ ∃ q qd, pn = some q ∧ s.nodes q = some qd ∧
            q ≠ n ∧ q ≠ yi ∧
            (heightOf s qd.left).isSome ∧ (heightOf s qd.right).isSome := by
          rcases hpar with hpn | ⟨q, qd, hq, hqd, hqmem, hql, hqr⟩
          · exact Or.inl hpn
          · exact Or.inr ⟨q, qd, hq, hqd,
              Ne.symm (hqfact n (List.mem_cons_self _ _) q hq),
              Ne.symm (hqfact yi (List.mem_cons_of_mem _ hyitail) q hq), hql, hqr⟩
        have hrd : ∀ ri, rr = .inner ri → ri ≠ n ∧ ri ≠ yi ∧
            (∀ bi, yr = .inner bi → ri ≠ bi) ∧ (∀ q1, pn = some q1 → ri ≠ q1) := by
          intro ri hri
          have hmem := hmemR ri hri
          refine ⟨fun he => hnmem (he ▸ hritail ri hmem),
            fun he => hdisj (he ▸ List.mem_cons_self _ _) hmem,
            fun bi hbi he => hdisj (List.mem_cons_of_mem _
              (List.mem_append_right _ (hmemC bi hbi))) (he ▸ hmem),
            fun q1 hq1 => hqfact ri (List.mem_cons_of_mem _ (hritail ri hmem)) q1 hq1⟩
        have hbd : ∀ bi, yl = .inner bi → bi ≠ n ∧ bi ≠ yi ∧
            (∀ ci, yr = .inner ci → bi ≠ ci) ∧ (∀ q1, pn = some q1 → bi ≠ q1) := by
          intro bi hbi
          have hmem := hmemB bi hbi
          refine ⟨fun he => hnmem (he ▸ hbitail bi hmem),
            fun he => hyimem (he ▸ List.mem_append_left _ hmem),
            fun ci hci he => hdisjY hmem (he ▸ hmemC ci hci),
            fun q1 hq1 => hqfact bi (List.mem_cons_of_mem _ (hbitail bi hmem)) q1 hq1⟩
        have hcd : ∀ ci, yr = .inner ci → ci ≠ n ∧ ci ≠ yi ∧
            (∀ q1, pn = some q1 → ci ≠ q1) := by
          intro ci hci
          have hmem := hmemC ci hci
          refine ⟨fun he => hnmem (he ▸ hcitail ci hmem),
            fun he => hyimem (he ▸ List.mem_append_right _ hmem),
            fun q1 hq1 => hqfact ci (List.mem_cons_of_mem _ (hcitail ci hmem)) q1 hq1⟩
        by_cases hA : hc - hb ≤ 0
        · -- single right rotation
          obtain ⟨s4, hrot, hx4, hy4, hbf4, hfr4, hmono4⟩ :=
            rot_right_run s n yi ⟨vn, .inner yi, rr, max (max hb hc + 1) hr + 1, pn⟩
              ⟨vy, yl, yr, max hb hc + 1, some n⟩ f hb hc hr
              hn rfl hyrec hnyi hHb hHc hHr
              (fun ai hai => ⟨(hbd ai hai).1, (hbd ai hai).2.1, (hbd ai hai).2.2.1,
                (hbd ai hai).2.2.2⟩)
              (fun bi hbi => ⟨(hcd bi hbi).1, (hcd bi hbi).2.1, (hcd bi hbi).2.2⟩)
              (fun ci hci => ⟨(hrd ci hci).1, (hrd ci hci).2.1,
                (fun bi hbi => (hrd ci hci).2.2.1 bi hbi), (hrd ci hci).2.2.2⟩)
              hpararg
          have hmaxbc : max hb hc = hb := max_eq_left (by omega)
          rw [hmaxbc] at hm2
          have hbnd : -2 < (max hc hr + 1) - hb ∧ (max hc hr + 1) - hb < 2 := by
            rcases le_total hc hr with hm | hm
            · rw [max_eq_right hm]; omega
            · rw [max_eq_left hm]; omega
          have hres : balance_node s n f = some (s4, yi) := by
            rw [hunf, if_neg (show ¬(hr - (max hb hc + 1) = 2) by rw [hmaxbc]; omega),
              if_pos (show hr - (max hb hc + 1) = -2 by rw [hmaxbc]; omega)]
            simp only [hlbf]
            rw [if_pos hA]
            simp only [hrot, hbf4]
            rw [if_pos hbnd]
          exact ⟨s4, yi, (max hc hr + 1) - hb, hres, hbf4, hbnd.1, hbnd.2⟩
        · -- double rotation: left child is right-heavy
          have hcp1 : hc - hb = 1 := by omega
          cases hYR
          · omega
          · rename_i zi vz zl zr hzl hzr zlids zrids hzb1 hzb2 hznodup hzlov hZL hzvhi hZR hzrec
            have hHzl : heightOf s zl = some hzl := SubWF_heightOf _ _ _ _ _ _ _ hZL
            have hHzr : heightOf s zr = some hzr := SubWF_heightOf _ _ _ _ _ _ _ hZR
            have hzl0 : 0 ≤ hzl := SubWF_nonneg _ _ _ _ _ _ _ hZL
            have hzr0 : 0 ≤ hzr := SubWF_nonneg _ _ _ _ _ _ _ hZR
            have hmemZL : ∀ ai, zl = Ref.inner ai → ai ∈ zlids := fun ai hai =>
              SubWF_mem _ _ _ _ _ _ _ (hai ▸ hZL)
            have hmemZR : ∀ bi, zr = Ref.inner bi → bi ∈ zrids := fun bi hbi =>
              SubWF_mem _ _ _ _ _ _ _ (hbi ▸ hZR)
            have hziyl : zi ∈ zi :: (zlids ++ zrids) := List.mem_cons_self _ _
            have hzgrp : ∀ j, j ∈ zi :: (zlids ++ zrids) →
                j ∈ (yi :: (ylids ++ (zi :: (zlids ++ zrids)))) ++ rids :=
              fun j hj => List.mem_append_left _
                (List.mem_cons_of_mem _ (List.mem_append_right _ hj))
            have hyizi : yi ≠ zi := by
              intro he
              subst he
              exact hyimem (List.mem_append_right _ hziyl)
            have hnzi : n ≠ zi := by
              intro he
              subst he
              exact hnmem (hzgrp _ hziyl)
            have hziYn : (zi :: (zlids ++ zrids)).Nodup := hysplit.2.1
            have hzimem : zi ∉ zlids ++ zrids := (List.nodup_cons.mp hziYn).1
            have hzzsplit := List.nodup_append.mp (List.nodup_cons.mp hziYn).2
            have hdisjZ : zlids.Disjoint zrids := hzzsplit.2.2
            have hnr2 : ∀ ci, rr = Ref.inner ci → ci ≠ yi ∧ ci ≠ zi ∧ ci ≠ n ∧
                (∀ bi, zl = Ref.inner bi → ci ≠ bi) := by
              intro ci hci
              have hmem := hmemR ci hci
              refine ⟨fun he => hdisj (he ▸ List.mem_cons_self _ _) hmem, ?_, (hrd ci hci).1, ?_⟩
              · intro he
                exact hdisj (List.mem_cons_of_mem _ (List.mem_append_right _ (he ▸ hziyl))) hmem
              · intro bi hbi he
                exact hdisj (List.mem_cons_of_mem _ (List.mem_append_right _
                  (List.mem_cons_of_mem _ (List.mem_append_left _ (hmemZL bi hbi)))))
                  (he ▸ hmem)
            have hld2 : ∀ li, yl = Ref.inner li → li ≠ yi ∧ li ≠ zi ∧ li ≠ n ∧
                (∀ bi, zl = Ref.inner bi → li ≠ bi) := by
              intro li hli
              have hmem := hmemB li hli
              refine ⟨fun he => hyimem (he ▸ List.mem_append_left _ hmem), ?_,
                (hbd li hli).1, ?_⟩
              · intro he
                exact hdisjY hmem (he ▸ hziyl)
              · intro bi hbi he
                exact hdisjY hmem (he ▸ List.mem_cons_of_mem _
                  (List.mem_append_left _ (hmemZL bi hbi)))
            have hbd2 : ∀ bi, zl = Ref.inner bi → bi ≠ yi ∧ bi ≠ zi ∧ bi ≠ n := by
              intro bi hbi
              have hmem := hmemZL bi hbi
              have hgrp : bi ∈ zi :: (zlids ++ zrids) :=
                List.mem_cons_of_mem _ (List.mem_append_left _ hmem)
              refine ⟨?_, ?_, ?_⟩
              · intro he; exact hyimem (he ▸ List.mem_append_right _ hgrp)
              · intro he; exact hzimem (he ▸ List.mem_append_left _ hmem)
              · intro he; exact hnmem (he ▸ hzgrp bi hgrp)
            have hadz : ∀ ai, zr = Ref.inner ai → ai ≠ yi ∧ ai ≠ zi ∧ ai ≠ n ∧
                (∀ bi, zl = Ref.inner bi → ai ≠ bi) := by
              intro ai hai
              have hmem := hmemZR ai hai
              have hgrp : ai ∈ zi :: (zlids ++ zrids) :=
                List.mem_cons_of_mem _ (List.mem_append_right _ hmem)
              refine ⟨?_, ?_, ?_, ?_⟩
              · intro he; exact hyimem (he ▸ List.mem_append_right _ hgrp)
              · intro he; exact hzimem (he ▸ List.mem_append_right _ hmem)
              · intro he; exact hnmem (he ▸ hzgrp ai hgrp)
              · intro bi hbi he
                exact hdisjZ (hmemZL bi hbi) ((he.symm ▸ hmem) : bi ∈ zrids)
            obtain ⟨sp, hrotA, hspn, hspyi, hspzi, hfrA, hmonoA⟩ :=
              rot_left_child_run s yi zi n
                ⟨vy, yl, .inner zi, max hb (max hzl hzr + 1) + 1, some n⟩
                ⟨vz, zl, zr, max hzl hzr + 1, some yi⟩
                ⟨vn, .inner yi, rr, max (max hb (max hzl hzr + 1) + 1) hr + 1, pn⟩
                f hb hzl hzr hr
                hyrec rfl hzrec hn rfl hyizi (Ne.symm hnyi).symm hnzi
                hHb hHzl hHzr hHr
                rfl
                hnr2 hld2 hbd2 hadz
            have hsphr : heightOf sp rr = some hr := by
              rw [heightOf_congr s sp rr (fun ri hri => hfrA ri (hnr2 ri hri).1
                (hnr2 ri hri).2.1 (hnr2 ri hri).2.2.1 (hnr2 ri hri).2.2.2)]
              exact hHr
            have hsphzr : heightOf sp zr = some hzr := by
              rw [heightOf_congr s sp zr (fun ai hai => hfrA ai (hadz ai hai).1
                (hadz ai hai).2.1 (hadz ai hai).2.2.1 (hadz ai hai).2.2.2)]
              exact hHzr
            have hsphyi : heightOf sp (Ref.inner yi) = some (max hb hzl + 1) := by
              simp [heightOf, hspyi]
            have hrd2 : ∀ ci, rr = Ref.inner ci → ci ≠ n ∧ ci ≠ zi ∧
                (∀ bi, zr = Ref.inner bi → ci ≠ bi) ∧ (∀ q1, pn = some q1 → ci ≠ q1) := by
              intro ci hci
              have hmem := hmemR ci hci
              refine ⟨(hrd ci hci).1, (hnr2 ci hci).2.1, ?_, (hrd ci hci).2.2.2⟩
              intro bi hbi he
              exact hdisj (List.mem_cons_of_mem _ (List.mem_append_right _
                (List.mem_cons_of_mem _ (List.mem_append_right _ (hmemZR bi hbi)))))
                (he ▸ hmem)
            have had2 : ∀ ai, zr = Ref.inner ai → ai ≠ n ∧ ai ≠ zi ∧
                (∀ q1, pn = some q1 → ai ≠ q1) := by
              intro ai hai
              refine ⟨(hadz ai hai).2.2.1, (hadz ai hai).2.1, ?_⟩
              intro q1 hq1
              exact hqfact ai (List.mem_cons_of_mem _ (hzgrp ai
                (List.mem_cons_of_mem _ (List.mem_append_right _ (hmemZR ai hai))))) q1 hq1
            have hcd2 : ∀ ci, Ref.inner yi = Ref.inner ci → ci ≠ n ∧ ci ≠ zi ∧
                (∀ bi, zr = Ref.inner bi → ci ≠ bi) ∧ (∀ q1, pn = some q1 → ci ≠ q1) := by
              intro ci hci
              cases hci
              refine ⟨Ne.symm hnyi, hyizi, ?_, ?_⟩
              · intro bi hbi he
                exact hyimem (he ▸ List.mem_append_right _
                  (List.mem_cons_of_mem _ (List.mem_append_right _ (hmemZR bi hbi))))
              · intro q1 hq1
                exact hqfact yi (List.mem_cons_of_mem _ hyitail) q1 hq1
            have hpar2 : pn = none ∨ ∃ q qd, pn = some q ∧ sp.nodes q = some qd ∧
                q ≠ n ∧ q ≠ zi ∧
                (heightOf sp qd.left).isSome ∧ (heightOf sp qd.right).isSome := by
              rcases hpar with hpn | ⟨q, qd, hq, hqd, hqmem, hql, hqr⟩
              · exact Or.inl hpn
              · refine Or.inr ⟨q, qd, hq, ?_, Ne.symm (hqfact n (List.mem_cons_self _ _) q hq),
                  Ne.symm (hqfact zi (List.mem_cons_of_mem _ (hzgrp zi hziyl)) q hq),
                  isSome_heightOf_mono s sp hmonoA _ hql,
                  isSome_heightOf_mono s sp hmonoA _ hqr⟩
                rw [hfrA q (Ne.symm (hqfact yi (List.mem_cons_of_mem _ hyitail) q hq))
                  (Ne.symm (hqfact zi (List.mem_cons_of_mem _ (hzgrp zi hziyl)) q hq))
                  (Ne.symm (hqfact n (List.mem_cons_self _ _) q hq))
                  (fun bi hbi => Ne.symm (hqfact bi (List.mem_cons_of_mem _ (hzgrp bi
                    (List.mem_cons_of_mem _ (List.mem_append_left _ (hmemZL bi hbi))))) q hq))]
                exact hqd
            obtain ⟨s4, hrotB, hx4, hy4, hbf4, hfr4, hmono4⟩ :=
              rot_right_run sp n zi
                ⟨vn, .inner zi, rr, max (max hzl hzr + 1) hr + 1, pn⟩
                ⟨vz, .inner yi, zr, max (max hb hzl + 1) hzr + 1, some n⟩
                f (max hb hzl + 1) hzr hr
                hspn rfl hspzi hnzi hsphyi hsphzr hsphr
                hcd2 had2 hrd2 hpar2
            have hM1 : hzl ≤ max hzl hzr := le_max_left _ _
            have hM2 : hzr ≤ max hzl hzr := le_max_right _ _
            have hmaxbc2 : max hb (max hzl hzr + 1) = max hzl hzr + 1 :=
              max_eq_right (by omega)
            rw [hmaxbc2] at hm2
            have e1 : max hzr hr = hr := max_eq_right (by omega)
            have e2 : max hb hzl = hb := max_eq_left (by omega)
            have hbnd : -2 < (max hzr hr + 1) - (max hb hzl + 1) ∧
                (max hzr hr + 1) - (max hb hzl + 1) < 2 := by
              rw [e1, e2]; omega
            have hres : balance_node s n f = some (s4, zi) := by
              rw [hunf, if_neg (show ¬(hr - (max hb (max hzl hzr + 1) + 1) = 2) by
                rw [hmaxbc2]; omega),
                if_pos (show hr - (max hb (max hzl hzr + 1) + 1) = -2 by
                rw [hmaxbc2]; omega)]
              simp only [hlbf]
              rw [if_neg hA, if_pos hcp1]
              simp only [hrotA, hrotB, hbf4]
              rw [if_pos hbnd]
            exact ⟨s4, zi, (max hzr hr + 1) - (max hb hzl + 1), hres, hbf4, hbnd.1, hbnd.2⟩

    · -- no rotation case
      have hres : balance_node s n f = some (s, n) := by
        rw [hunf, if_neg h2, if_neg hm2]
        show (match bfOf s (.inner n) with
              | none => none
              | some bf1 => if -2 < bf1 ∧ bf1 < 2 then some (s, n) else none) = some (s, n)
        rw [hbf0]
        show (if -2 < hr - hl ∧ hr - hl < 2 then some (s, n) else none) = some (s, n)
        rw [if_pos ⟨by omega, by omega⟩]
      exact ⟨s, n, hr - hl, hres, hbf0, by omega, by omega⟩

/-- Witness: the balance_node postcondition at a concrete one-node heap. -/
theorem c6_balance_node_postcondition_witness :
    ∃ s2 m bf2, balance_node c6WSt 0 1 = some (s2, m) ∧
      bfOf s2 (.inner m) = some bf2 ∧ -2 < bf2 ∧ bf2 < 2 :=
  c6_balance_node_postcondition c6WSt 0 1 0 0 0 .empty .empty none [] [] (-1) 1
    (by decide)
    (by simp [c6WSt])
    (by decide) (by decide)
    (SubWF.empty _ _ _ _) (SubWF.empty _ _ _ _)
    (by simp)
    (by decide) (by decide)
    (Or.inl rfl)

end STree
